import Mathlib

/-!
Verification of the sliding-puzzle core of `SlidePuzzle.py`.

The Python source is shallowly embedded: `Board` mirrors the Python class
(`_height_and_width`, `_board`), the helper functions `count_sort` and
`merge_count` are translated verbatim (with an explicit recursion-depth
argument so that they reduce in the kernel; the depth used always suffices,
see `merge_count_eq_impl` and `count_sort_eq_impl`), and the A* solver is a
fueled state machine whose state holds the open list, the `item_by_idx`
table, the `visited` set, and (as pure instrumentation) the list of all
boards ever passed to `heappush`.

Python `int` values that are always nonnegative are modelled as `Nat`;
coordinates that can go to `-1` during the bounds check of `move_tile` are
modelled as `Int`, exactly as the check `-1 < x < width` requires.
Python's `list.index` (which raises on a missing element) is modelled
totally; all theorems that depend on the position of a tile carry the
board-is-a-permutation hypothesis under which the element is present,
which is the data-model invariant of the spec.
-/

namespace SlidePuzzle

/-- The four move directions `"u"`, `"d"`, `"l"`, `"r"` of the source. -/
inductive Dir where
  | u
  | d
  | l
  | r
deriving DecidableEq

/-- Rank of a direction in Python string order: `"d" < "l" < "r" < "u"`. -/
def Dir.rank : Dir → Nat
  | .d => 0
  | .l => 1
  | .r => 2
  | .u => 3

def EMPTY_TILE : Nat := 0

/-- `Board` from the source: `_height_and_width` and the `_board` tuple. -/
structure Board where
  hw : Nat
  board : List Nat
deriving DecidableEq

def Board.size (b : Board) : Nat := b.hw ^ 2

def Board.width (b : Board) : Nat := b.hw

def Board.height (b : Board) : Nat := b.hw

/-- `Board.x`: `self._board.index(tile_num) % self.width()`. -/
def Board.x (b : Board) (tile_num : Nat) : Nat :=
  b.board.indexOf tile_num % b.width

/-- `Board.y`, keeping the source's redundant special case for index 0. -/
def Board.y (b : Board) (tile_num : Nat) : Nat :=
  let tile_idx := b.board.indexOf tile_num
  if tile_idx = 0 then 0 else tile_idx / b.width

def Board.xy_to_idx (b : Board) (x y : Nat) : Nat :=
  b.width * y + x

/-- `Board.goal`: cells `[1, 2, ..., size-1, 0]` of the same dimensions. -/
def Board.goal (b : Board) : Board :=
  ⟨b.hw, (List.range' 1 b.size).map (fun i => if i ≠ b.size then i else EMPTY_TILE)⟩

/-- `merge_count` with an explicit recursion-depth argument (the source
recurses on the combined length of the two lists, which Lean cannot see
structurally; `merge_count` below always supplies enough depth). -/
def merge_count_impl {α : Type} [LinearOrder α] : Nat → List α → List α → List α × Nat
  | _, [], B => (B, 0)
  | _, a :: A, [] => (a :: A, 0)
  | 0, _ :: _, _ :: _ => ([], 0)
  | fuel + 1, a :: A, b :: B =>
    if a ≤ b then
      let r := merge_count_impl fuel A (b :: B)
      (a :: r.1, r.2)
    else
      let r := merge_count_impl fuel (a :: A) B
      (b :: r.1, r.2 + (A.length + 1))

/-- `merge_count(A, B)` from the source: merges two lists, counting the
inversions between them (`c += len(A)` whenever the head of `B` wins). -/
def merge_count {α : Type} [LinearOrder α] (A B : List α) : List α × Nat :=
  merge_count_impl (A.length + B.length) A B

/-- `count_sort` with an explicit recursion-depth argument; the list length
(always supplied by `count_sort`) bounds the recursion depth. -/
def count_sort_impl {α : Type} [LinearOrder α] : Nat → List α → List α × Nat
  | 0, L => (L, 0)
  | fuel + 1, L =>
    let half := L.length / 2
    if L.length = 0 ∨ half = 0 then (L, 0)
    else
      let r1 := count_sort_impl fuel (L.take half)
      let r2 := count_sort_impl fuel (L.drop half)
      let r := merge_count r1.1 r2.1
      (r.1, r.2 + r1.2 + r2.2)

/-- `count_sort(L)` from the source: merge sort returning the sorted list
together with the number of counted inversions. -/
def count_sort {α : Type} [LinearOrder α] (L : List α) : List α × Nat :=
  count_sort_impl L.length L

/-- `Board.solvable`: inversion count of the cells with the empty slot
replaced by `size + 1`, plus the grid distance from the empty slot to the
bottom-right corner, must be even. -/
def Board.solvable (b : Board) : Bool :=
  let L := b.board.map (fun t => if t ≠ EMPTY_TILE then t else b.size + 1)
  let inv_cnt := (count_sort L).2
  let x := b.x EMPTY_TILE
  let y := b.y EMPTY_TILE
  let dist := ((x : Int) - ((b.width : Int) - 1)).natAbs +
    ((y : Int) - ((b.height : Int) - 1)).natAbs
  decide ((inv_cnt + dist) % 2 = 0)

/-- Coordinates the empty slot would move to in `move_tile` (before the
bounds check), as integers since they may be `-1`. -/
def Board.move_target (b : Board) (dir : Dir) : Int × Int :=
  let x := b.x EMPTY_TILE
  let y := b.y EMPTY_TILE
  match dir with
  | .l => ((x : Int) - 1, (y : Int))
  | .r => ((x : Int) + 1, (y : Int))
  | .u => ((x : Int), (y : Int) - 1)
  | .d => ((x : Int), (y : Int) + 1)

/-- The source's bounds check `-1 < x < self.width() and -1 < y < self.height()`. -/
def Board.move_in_bounds (b : Board) (dir : Dir) : Bool :=
  let p := b.move_target dir
  decide (-1 < p.1 ∧ p.1 < (b.width : Int) ∧ -1 < p.2 ∧ p.2 < (b.height : Int))

/-- `Board.move_tile(direction, new=True)`: the board value produced by a
move, or `none` when the empty slot would leave the grid.  The simultaneous
Python assignment swapping the two cells reads both positions from the
original list before writing, which the two `set`s below reproduce. -/
def Board.move_tile (b : Board) (dir : Dir) : Option Board :=
  if b.move_in_bounds dir then
    let p := b.move_target dir
    let idx := b.xy_to_idx p.1.toNat p.2.toNat
    let old_idx := b.xy_to_idx (b.x EMPTY_TILE) (b.y EMPTY_TILE)
    some ⟨b.hw, (b.board.set idx (b.board.getD old_idx 0)).set old_idx (b.board.getD idx 0)⟩
  else none

/-- `Board.move_tile(direction, new=False)`: the pair (returned value,
state of the receiver after the call).  With `new=False` the method mutates
`self._board` and returns `self`, but only after the bounds check passed;
when the check fails it returns `None` with the receiver untouched. -/
def Board.move_tile_inplace (b : Board) (dir : Dir) : Option Board × Board :=
  match b.move_tile dir with
  | none => (none, b)
  | some b2 => (some b2, b2)

/-- `Board.successors()`: dict from direction to moved board, in the
insertion order `u, d, l, r` of the source's loop. -/
def Board.successors (b : Board) : List (Dir × Board) :=
  [Dir.u, Dir.d, Dir.l, Dir.r].filterMap (fun dir => (b.move_tile dir).map (fun nb => (dir, nb)))

/-- `Board.m_dist(other_board, tile_num, count_free_tile)`.  The first
guard is `_valid_tile_num` on `self`; after the free-tile shortcut,
`other_board.x(tile_num)` validates the tile against `other_board` (there
is no size-equality check in this method).  `none` models the raised
`AssertionError`. -/
def Board.m_dist (b other_board : Board) (tile_num : Nat) (count_free_tile : Bool) :
    Option Nat :=
  if ¬ tile_num < b.size then none
  else if count_free_tile = false ∧ tile_num = EMPTY_TILE then some 0
  else if ¬ tile_num < other_board.size then none
  else some ((((b.x tile_num : Int) - (other_board.x tile_num : Int)).natAbs) +
    (((b.y tile_num : Int) - (other_board.y tile_num : Int)).natAbs))

/-- The numeric value of `m_dist` for a valid non-raising call with
`count_free_tile=False`; used by `sum_m_dists` where every call is valid. -/
def Board.m_dist_val (b other_board : Board) (tile_num : Nat) : Nat :=
  if tile_num = EMPTY_TILE then 0
  else (((b.x tile_num : Int) - (other_board.x tile_num : Int)).natAbs) +
    (((b.y tile_num : Int) - (other_board.y tile_num : Int)).natAbs)

/-- `Board.sum_m_dists(other_board)`: asserts equal sizes, then sums
`m_dist` over all tile numbers `0 .. size-1`. -/
def Board.sum_m_dists (b other_board : Board) : Option Nat :=
  if b.size ≠ other_board.size then none
  else some (((List.range b.size).map (fun i => b.m_dist_val other_board i)).sum)

/-- The total heuristic sum used inside `solve`, where both boards always
have the size of the start board so the assertion in `sum_m_dists` passes. -/
def Board.h_sum (b other_board : Board) : Nat :=
  ((List.range b.size).map (fun i => b.m_dist_val other_board i)).sum

/-- `Board.__eq__`: compares only the cell tuples. -/
def Board.beq (b1 b2 : Board) : Bool :=
  b1.board == b2.board

/-- `Board.solved()`: equality with the goal board. -/
def Board.solved (b : Board) : Bool :=
  b.beq b.goal

/-- Python tuple `<` on cell sequences (lexicographic). -/
def cellsLt : List Nat → List Nat → Bool
  | [], [] => false
  | [], _ :: _ => true
  | _ :: _, [] => false
  | x :: xs, y :: ys => if x < y then true else if y < x then false else cellsLt xs ys

/-- `Board.__lt__`: lexicographic comparison of the cell tuples. -/
def Board.lt (b1 b2 : Board) : Bool :=
  cellsLt b1.board b2.board

/-- The `Item` namedtuple `(f, h, g, board, direction, parent_index)`.
`direction` is `none` for the start item; `parent_index` is `-1` for the
start item, hence an `Int`. -/
structure Item where
  f : Nat
  h : Nat
  g : Nat
  board : Board
  direction : Option Dir
  parent_index : Int
deriving DecidableEq

/-- Python `==` on items; the board component compares by cells only. -/
def Item.beq (i1 i2 : Item) : Bool :=
  i1.f == i2.f && i1.h == i2.h && i1.g == i2.g && i1.board.beq i2.board &&
    i1.direction == i2.direction && i1.parent_index == i2.parent_index

/-- Order on the `direction` component.  In Python comparing `None` with a
string raises, but this comparison is only reached when two items agree on
`f`, `h`, `g` and board, which never happens in a run (two items with the
same board always differ in `g`, hence in `f`); the `none` cases here are
therefore arbitrary. -/
def optDirLt : Option Dir → Option Dir → Bool
  | none, none => false
  | none, some _ => true
  | some _, none => false
  | some d1, some d2 => d1.rank < d2.rank

/-- Python tuple `<` on `Item` namedtuples: lexicographic by field, each
field compared with `==` then `<`. -/
def Item.lt (i1 i2 : Item) : Bool :=
  if i1.f ≠ i2.f then i1.f < i2.f
  else if i1.h ≠ i2.h then i1.h < i2.h
  else if i1.g ≠ i2.g then i1.g < i2.g
  else if i1.board.board ≠ i2.board.board then Board.lt i1.board i2.board
  else if i1.direction ≠ i2.direction then optDirLt i1.direction i2.direction
  else i1.parent_index < i2.parent_index

/-- The open set.  `heapq` pops a minimal element of the heap; since no
two items in a run compare equal under `Item.lt` (same-board items differ
in `f`), its observable behavior is exactly that of a list kept sorted by
`Item.lt` and popped at the head, which is how it is modelled. -/
def heap_insert : List Item → Item → List Item
  | [], it => [it]
  | x :: xs, it => if Item.lt it x then it :: x :: xs else x :: heap_insert xs it

/-- The `Move` namedtuple `(direction, board)` of the returned path. -/
structure PMove where
  direction : Option Dir
  board : Board
deriving DecidableEq

/-- Result of one `solve` search run.  `exhausted` is the Python fall-off
of `while len(open) > 0` (an implicit `None` return); `fuelOut` and
`badIndex` are artifacts of the fueled embedding and never occur when
enough fuel is supplied and the traceback indices are well-formed. -/
inductive SolveOut where
  | found : List PMove → SolveOut
  | exhausted : SolveOut
  | fuelOut : SolveOut
  | badIndex : SolveOut
deriving DecidableEq

/-- Search state of `solve`: the open priority queue, the `item_by_idx`
table (index `i` holds the item created `i`-th, so the Python index
generator is the list length), the `visited` set of cell tuples, and, as
pure instrumentation, every board ever passed to `heappush`, in order. -/
structure AState where
  openL : List Item
  item_by_idx : List Item
  visited : List (List Nat)
  pushed : List (List Nat)

/-- The local `item(g, direction, board, parent_index)` constructor of
`solve`: `h` is `board.sum_m_dists(goal)` (whose size assertion always
passes inside a run, so the numeric value `h_sum` is used). -/
def mk_item (goal : Board) (g : Nat) (direction : Option Dir) (board : Board)
    (parent_index : Int) : Item :=
  let h := board.h_sum goal
  ⟨g + h, h, g, board, direction, parent_index⟩

/-- One iteration of the successor loop of `solve`: skip a successor whose
cells are already visited, otherwise record it as visited, assign it the
next index, store it in the tables and push it on the open queue. -/
def push_successor (goal : Board) (g : Nat) (curr_idx : Nat) (st : AState)
    (s : Dir × Board) : AState :=
  if st.visited.contains s.2.board then st
  else
    let it := mk_item goal g (some s.1) s.2 (Int.ofNat curr_idx)
    { openL := heap_insert st.openL it
      item_by_idx := st.item_by_idx ++ [it]
      visited := s.2.board :: st.visited
      pushed := st.pushed ++ [s.2.board] }

/-- The traceback loop of `solve`: follow `parent_index` links from the
goal item until the start item is reached.  Fueled; parent indices
strictly decrease, so fuel `item_by_idx.length` always suffices. -/
def traceback (item_by_idx : List Item) (start_item : Item) : Item → Nat → Option (List Item)
  | _, 0 => none
  | cur, fuel + 1 =>
    if cur.beq start_item then some [cur]
    else
      match item_by_idx.get? cur.parent_index.toNat with
      | none => none
      | some p => (traceback item_by_idx start_item p fuel).map (fun path => cur :: path)

/-- The main `while len(open) > 0` loop of `solve`, fueled.  Returns the
outcome together with the final search state (for the instrumentation
theorems; the state does not influence the outcome). -/
def astar_loop (goal : Board) (start_item : Item) : Nat → AState → SolveOut × AState
  | 0, st => (.fuelOut, st)
  | fuel + 1, st =>
    match st.openL with
    | [] => (.exhausted, st)
    | curr :: rest =>
      let st1 : AState := { st with openL := rest }
      let g := curr.g + 1
      let curr_idx := st1.item_by_idx.findIdx (fun it => it.beq curr)
      if curr.board.beq goal then
        match traceback st1.item_by_idx start_item curr st1.item_by_idx.length with
        | some path =>
          (.found ((path.map (fun it => PMove.mk it.direction it.board)).reverse), st1)
        | none => (.badIndex, st1)
      else
        let st2 := curr.board.successors.foldl (push_successor goal g curr_idx) st1
        astar_loop goal start_item fuel st2

/-- The search part of `Board.solve`, after the precondition checks:
build the start item (`g = 0`, no direction, parent `-1`), push it, and
run the loop against the goal of the start board. -/
def Board.solve_run (b : Board) (fuel : Nat) : SolveOut × AState :=
  let goal := b.goal
  let start_item := mk_item goal 0 none b (-1)
  astar_loop goal start_item fuel
    { openL := [start_item], item_by_idx := [start_item], visited := [],
      pushed := [b.board] }

/-- `Board.solve(ignore_warning)`: assert solvability, then the 3x3 size
guard unless `ignore_warning`, then search.  `Except.error` models the
raised `AssertionError`s, which happen before any search work. -/
def Board.solve (b : Board) (ignore_warning : Bool) (fuel : Nat) : Except String SolveOut :=
  if ¬ b.solvable then .error "board not solvable"
  else if ¬ ignore_warning ∧ (3 < b.width ∨ 3 < b.height) then .error "board too large"
  else .ok (b.solve_run fuel).1

/-- Apply a sequence of moves (each must be legal for the whole
application to succeed). -/
def Board.apply_moves (b : Board) : List Dir → Option Board
  | [] => some b
  | dir :: ds => (b.move_tile dir).bind (fun b2 => b2.apply_moves ds)

/-- Number of inversions of a list: for each element, the number of
strictly smaller elements after it. -/
def inversions {α : Type} [LinearOrder α] : List α → Nat
  | [] => 0
  | x :: xs => xs.countP (fun y => decide (y < x)) + inversions xs

/-- Number of index pairs `i < j` with `L[i] > L[j]`, stated literally
over index pairs (the spec's definition of inversion count). -/
def pair_inversions {α : Type} [LinearOrder α] (L : List α) : Nat :=
  (Finset.univ.filter
    (fun p : Fin L.length × Fin L.length => p.1.val < p.2.val ∧ L.get p.2 < L.get p.1)).card

/-- Number of inverted pairs between two lists: pairs `(a, b)` with `a`
from `A`, `b` from `B` and `b < a`. -/
def cross_count {α : Type} [LinearOrder α] (A B : List α) : Nat :=
  (A.map (fun a => B.countP (fun y => decide (y < a)))).sum

/-- The substitution the solvability test applies to the cells: the empty
slot becomes `n + 1` (with `n` the board size), other tiles stay. -/
def subst_empty (n : Nat) (t : Nat) : Nat :=
  if t ≠ EMPTY_TILE then t else n + 1

/-- Number of moves in a `solve` outcome: the returned list holds the
start pair at index 0 followed by one pair per move, so the move count is
the list length minus one. -/
def solve_moves_count (e : Except String SolveOut) : Option Nat :=
  match e with
  | .ok (.found p) => some (p.length - 1)
  | _ => none

instance : DecidableEq (Except String SolveOut) := fun a b =>
  match a, b with
  | .ok x, .ok y => if h : x = y then .isTrue (by rw [h]) else .isFalse (by simp [h])
  | .error x, .error y => if h : x = y then .isTrue (by rw [h]) else .isFalse (by simp [h])
  | .ok _, .error _ => .isFalse (by simp)
  | .error _, .ok _ => .isFalse (by simp)

section RecursionEquations

variable {α : Type} [LinearOrder α]

theorem merge_count_nil_left (B : List α) : merge_count [] B = (B, 0) := by
  cases B <;> rfl

theorem merge_count_nil_right (a : α) (A : List α) : merge_count (a :: A) [] = (a :: A, 0) :=
  rfl

theorem merge_count_cons_cons (a b : α) (A B : List α) :
    merge_count (a :: A) (b :: B) =
      if a ≤ b then
        ((a :: (merge_count A (b :: B)).1), (merge_count A (b :: B)).2)
      else
        ((b :: (merge_count (a :: A) B).1), (merge_count (a :: A) B).2 + (A.length + 1)) := by
  show merge_count_impl ((a :: A).length + (b :: B).length) (a :: A) (b :: B) = _
  have h1 : (a :: A).length + (b :: B).length = (A.length + (b :: B).length) + 1 := by
    simp [List.length_cons]; omega
  have h2 : A.length + (b :: B).length = (a :: A).length + B.length := by
    simp [List.length_cons]; omega
  rw [h1]
  show (if a ≤ b then _ else _) = _
  by_cases hab : a ≤ b
  · simp only [if_pos hab]
    rfl
  · simp only [if_neg hab]
    rw [h2]
    rfl

theorem count_sort_impl_fuel :
    ∀ (n : Nat) (L : List α), L.length ≤ n → count_sort_impl n L = count_sort L := by
  intro n
  induction n using Nat.strong_induction_on with
  | _ n ih =>
    intro L hL
    match n, L with
    | 0, L =>
      have : L = [] := List.eq_nil_of_length_eq_zero (by omega)
      subst this
      rfl
    | f + 1, [] => rfl
    | f + 1, x :: xs =>
      by_cases hbase : (x :: xs).length = 0 ∨ (x :: xs).length / 2 = 0
      · have hxs : xs = [] := by
          rcases hbase with h0 | hh
          · simp at h0
          · refine List.eq_nil_of_length_eq_zero ?_
            simp [List.length_cons] at hh
            omega
        subst hxs
        simp [count_sort, count_sort_impl]
      · push_neg at hbase
        have hlen : 2 ≤ (x :: xs).length := by
          rcases hbase with ⟨h0, hh⟩
          by_contra hc
          push_neg at hc
          interval_cases hl : (x :: xs).length <;> simp_all
        have hx1 : 1 ≤ xs.length := by
          simp [List.length_cons] at hlen
          omega
        have hfx : xs.length ≤ f := by
          simp [List.length_cons] at hL
          omega
        have htake : (List.take ((x :: xs).length / 2) (x :: xs)).length =
            (x :: xs).length / 2 := by
          simp [List.length_take, List.length_cons]
          omega
        have hdrop : (List.drop ((x :: xs).length / 2) (x :: xs)).length =
            (x :: xs).length - (x :: xs).length / 2 := by
          simp [List.length_drop]
        have hhalf1 : 1 ≤ (x :: xs).length / 2 := by omega
        have hhalf2 : (x :: xs).length / 2 ≤ xs.length := by
          simp [List.length_cons]
          omega
        show (if (x :: xs).length = 0 ∨ (x :: xs).length / 2 = 0 then _ else _) = _
        rw [if_neg (by push_neg; exact hbase)]
        show _ = (if (x :: xs).length = 0 ∨ (x :: xs).length / 2 = 0 then _ else _)
        rw [if_neg (by push_neg; exact hbase)]
        have e1 := ih f (by omega) (List.take ((x :: xs).length / 2) (x :: xs))
          (by rw [htake]; omega)
        have e2 := ih f (by omega) (List.drop ((x :: xs).length / 2) (x :: xs))
          (by rw [hdrop]; simp [List.length_cons]; omega)
        have e1m := ih xs.length (by omega) (List.take ((x :: xs).length / 2) (x :: xs))
          (by rw [htake]; omega)
        have e2m := ih xs.length (by omega) (List.drop ((x :: xs).length / 2) (x :: xs))
          (by rw [hdrop]; simp [List.length_cons]; omega)
        rw [e1, e2, e1m, e2m]

theorem count_sort_base (L : List α) (h : L.length ≤ 1) : count_sort L = (L, 0) := by
  cases L with
  | nil => rfl
  | cons x xs =>
    have hxs : xs = [] := by
      refine List.eq_nil_of_length_eq_zero ?_
      simp only [List.length_cons] at h
      omega
    subst hxs
    simp [count_sort, count_sort_impl]

theorem count_sort_rec (L : List α) (h : 2 ≤ L.length) :
    count_sort L =
      ((merge_count (count_sort (L.take (L.length / 2))).1
          (count_sort (L.drop (L.length / 2))).1).1,
        (merge_count (count_sort (L.take (L.length / 2))).1
          (count_sort (L.drop (L.length / 2))).1).2 +
          (count_sort (L.take (L.length / 2))).2 + (count_sort (L.drop (L.length / 2))).2) := by
  match L, h with
  | x :: xs, h =>
    have hx1 : 1 ≤ xs.length := by
      simp [List.length_cons] at h
      omega
    have htake : (List.take ((x :: xs).length / 2) (x :: xs)).length =
        (x :: xs).length / 2 := by
      simp [List.length_take, List.length_cons]
      omega
    have hdrop : (List.drop ((x :: xs).length / 2) (x :: xs)).length =
        (x :: xs).length - (x :: xs).length / 2 := by
      simp [List.length_drop]
    show (if (x :: xs).length = 0 ∨ (x :: xs).length / 2 = 0 then _ else _) = _
    rw [if_neg (by simp [List.length_cons]; omega)]
    have e1 := count_sort_impl_fuel xs.length (List.take ((x :: xs).length / 2) (x :: xs))
      (by rw [htake]; simp [List.length_cons]; omega)
    have e2 := count_sort_impl_fuel xs.length (List.drop ((x :: xs).length / 2) (x :: xs))
      (by rw [hdrop]; simp [List.length_cons]; omega)
    rw [e1, e2]

end RecursionEquations

section InversionTheory

variable {α : Type} [LinearOrder α]

theorem cross_count_nil (B : List α) : cross_count ([] : List α) B = 0 := rfl

theorem cross_count_cons (x : α) (xs B : List α) :
    cross_count (x :: xs) B = B.countP (fun y => decide (y < x)) + cross_count xs B := by
  simp [cross_count]

theorem cross_count_nil_right (A : List α) : cross_count A ([] : List α) = 0 := by
  induction A with
  | nil => rfl
  | cons x xs ih => simp [cross_count_cons, ih]

theorem cross_count_cons_right (A : List α) (b : α) (B : List α) :
    cross_count A (b :: B) = A.countP (fun y => decide (b < y)) + cross_count A B := by
  induction A with
  | nil => simp [cross_count_nil, List.countP_nil]
  | cons x xs ih =>
    simp only [cross_count_cons, ih, List.countP_cons]
    by_cases h : b < x <;> simp [h] <;> omega

theorem countP_lt_add_countP_gt (m : List α) (a : α) (ha : a ∉ m) :
    m.countP (fun y => decide (y < a)) + m.countP (fun y => decide (a < y)) = m.length := by
  induction m with
  | nil => simp
  | cons z zs ih =>
    have hz : z ≠ a := by
      intro h
      exact ha (by simp [h])
    have hzs : a ∉ zs := fun h => ha (List.mem_cons_of_mem _ h)
    rcases lt_or_gt_of_ne hz with h | h
    · have := ih hzs
      simp only [List.countP_cons, List.length_cons]
      simp [h, not_lt_of_gt h]
      omega
    · have := ih hzs
      simp only [List.countP_cons, List.length_cons]
      simp [h, not_lt_of_gt h]
      omega

theorem inversions_nil : inversions ([] : List α) = 0 := rfl

theorem inversions_cons (x : α) (xs : List α) :
    inversions (x :: xs) = xs.countP (fun y => decide (y < x)) + inversions xs := rfl

theorem inversions_append (X Y : List α) :
    inversions (X ++ Y) = inversions X + inversions Y + cross_count X Y := by
  induction X with
  | nil => simp [inversions_nil, cross_count_nil]
  | cons x xs ih =>
    simp only [List.cons_append, inversions_cons, List.countP_append, ih, cross_count_cons]
    omega

theorem cross_count_perm_right (A : List α) {B B' : List α} (h : B.Perm B') :
    cross_count A B = cross_count A B' := by
  unfold cross_count
  refine congrArg List.sum (List.map_congr_left ?_)
  intro a _
  exact h.countP_eq _

theorem cross_count_perm_left {A A' : List α} (h : A.Perm A') (B : List α) :
    cross_count A B = cross_count A' B :=
  (h.map _).sum_eq

theorem merge_count_spec_aux (n : Nat) :
    ∀ A B : List α, A.length + B.length ≤ n → A.Sorted (· ≤ ·) → B.Sorted (· ≤ ·) →
      (merge_count A B).1.Sorted (· ≤ ·) ∧ (merge_count A B).1.Perm (A ++ B) ∧
        (merge_count A B).2 = cross_count A B := by
  induction n with
  | zero =>
    intro A B hlen hA hB
    have : A = [] := List.eq_nil_of_length_eq_zero (by omega)
    have hB0 : B = [] := List.eq_nil_of_length_eq_zero (by omega)
    subst this
    subst hB0
    simp [merge_count_nil_left, cross_count_nil]
  | succ n ih =>
    intro A B hlen hA hB
    match A, B with
    | [], B => simp [merge_count_nil_left, cross_count_nil, hB]
    | a :: A, [] => simp [merge_count_nil_right, cross_count_nil_right, hA]
    | a :: A, b :: B =>
      rw [merge_count_cons_cons]
      have hA' : A.Sorted (· ≤ ·) := (List.sorted_cons.mp hA).2
      have hB' : B.Sorted (· ≤ ·) := (List.sorted_cons.mp hB).2
      have haA : ∀ y ∈ A, a ≤ y := (List.sorted_cons.mp hA).1
      have hbB : ∀ y ∈ B, b ≤ y := (List.sorted_cons.mp hB).1
      by_cases hab : a ≤ b
      · rw [if_pos hab]
        obtain ⟨s1, p1, c1⟩ := ih A (b :: B) (by simp at hlen ⊢; omega) hA' hB
        refine ⟨?_, ?_, ?_⟩
        · rw [List.sorted_cons]
          refine ⟨?_, s1⟩
          intro y hy
          rcases List.mem_append.mp ((p1.mem_iff).mp hy) with h | h
          · exact haA y h
          · rcases List.mem_cons.mp h with h | h
            · exact h ▸ hab
            · exact le_trans hab (hbB y h)
        · exact (p1.cons a)
        · rw [c1, cross_count_cons]
          have h0 : (b :: B).countP (fun y => decide (y < a)) = 0 := by
            refine List.countP_eq_zero.mpr ?_
            intro y hy
            simp only [decide_eq_true_eq]
            rcases List.mem_cons.mp hy with h | h
            · exact h ▸ not_lt_of_ge hab
            · exact not_lt_of_ge (le_trans hab (hbB y h))
          omega
      · rw [if_neg hab]
        have hba : b < a := not_le.mp hab
        obtain ⟨s1, p1, c1⟩ := ih (a :: A) B (by simp at hlen ⊢; omega) hA hB'
        refine ⟨?_, ?_, ?_⟩
        · rw [List.sorted_cons]
          refine ⟨?_, s1⟩
          intro y hy
          rcases List.mem_append.mp ((p1.mem_iff).mp hy) with h | h
          · rcases List.mem_cons.mp h with h | h
            · exact h ▸ le_of_lt hba
            · exact le_trans (le_of_lt hba) (haA y h)
          · exact hbB y h
        · refine (p1.cons b).trans ?_
          exact (List.perm_middle).symm
        · rw [c1, cross_count_cons_right]
          have h1 : (a :: A).countP (fun y => decide (b < y)) = (a :: A).length := by
            refine List.countP_eq_length.mpr ?_
            intro y hy
            simp only [decide_eq_true_eq]
            rcases List.mem_cons.mp hy with h | h
            · exact h ▸ hba
            · exact lt_of_lt_of_le hba (haA y h)
          rw [h1]
          simp [List.length_cons]
          omega

theorem count_sort_spec_aux (n : Nat) :
    ∀ L : List α, L.length ≤ n →
      (count_sort L).1.Sorted (· ≤ ·) ∧ (count_sort L).1.Perm L ∧
        (count_sort L).2 = inversions L := by
  induction n using Nat.strong_induction_on with
  | _ n ih =>
    intro L hL
    by_cases hlen : L.length ≤ 1
    · rw [count_sort_base L hlen]
      match L, hlen with
      | [], _ => simp [inversions_nil]
      | [x], _ => simp [inversions_cons, inversions_nil]
    · push_neg at hlen
      have h2 : 2 ≤ L.length := hlen
      rw [count_sort_rec L h2]
      have htake : (L.take (L.length / 2)).length = L.length / 2 := by
        simp [List.length_take]
        omega
      have hdrop : (L.drop (L.length / 2)).length = L.length - L.length / 2 := by
        simp [List.length_drop]
      obtain ⟨sT, pT, cT⟩ := ih (L.length - 1) (by omega) (L.take (L.length / 2))
        (by rw [htake]; omega)
      obtain ⟨sD, pD, cD⟩ := ih (L.length - 1) (by omega) (L.drop (L.length / 2))
        (by rw [hdrop]; omega)
      obtain ⟨sM, pM, cM⟩ := merge_count_spec_aux
        ((count_sort (L.take (L.length / 2))).1.length + (count_sort (L.drop (L.length / 2))).1.length)
        (count_sort (L.take (L.length / 2))).1 (count_sort (L.drop (L.length / 2))).1
        le_rfl sT sD
      refine ⟨sM, ?_, ?_⟩
      · refine pM.trans ?_
        refine ((pT.append pD).trans ?_)
        rw [List.take_append_drop]
      · have hsplit : inversions L =
            inversions (L.take (L.length / 2)) + inversions (L.drop (L.length / 2)) +
              cross_count (L.take (L.length / 2)) (L.drop (L.length / 2)) := by
          conv_lhs => rw [← List.take_append_drop (L.length / 2) L]
          exact inversions_append _ _
        rw [cM, cross_count_perm_left pT, cross_count_perm_right _ pD, cT, cD, hsplit]
        omega

theorem count_sort_correct (L : List α) :
    (count_sort L).1.Sorted (· ≤ ·) ∧ (count_sort L).1.Perm L ∧
      (count_sort L).2 = inversions L :=
  count_sort_spec_aux L.length L le_rfl

theorem sum_indicator_eq_countP (xs : List α) (p : α → Bool) :
    (∑ j : Fin xs.length, if p (xs.get j) = true then (1 : Nat) else 0) = xs.countP p := by
  induction xs with
  | nil => simp
  | cons x t ih =>
    show (∑ j : Fin (t.length + 1), if p ((x :: t).get j) = true then (1 : Nat) else 0) = _
    rw [Fin.sum_univ_succ]
    simp only [List.countP_cons]
    have h0 : ((x :: t).get (0 : Fin (t.length + 1))) = x := rfl
    have hs : ∀ i : Fin t.length, (x :: t).get i.succ = t.get i := fun i => rfl
    simp only [h0, hs]
    rw [ih]
    by_cases h : p x <;> simp [h] <;> omega

theorem pair_inversions_eq_sum (L : List α) :
    pair_inversions L = ∑ i : Fin L.length, ∑ j : Fin L.length,
      if i.val < j.val ∧ L.get j < L.get i then (1 : Nat) else 0 := by
  unfold pair_inversions
  rw [Finset.card_filter]
  rw [← Finset.univ_product_univ, Finset.sum_product]

theorem inversions_eq_pair_inversions (L : List α) : inversions L = pair_inversions L := by
  induction L with
  | nil => simp [inversions_nil, pair_inversions_eq_sum]
  | cons x xs ih =>
    rw [inversions_cons, ih, pair_inversions_eq_sum, pair_inversions_eq_sum]
    show _ = ∑ i : Fin (xs.length + 1), ∑ j : Fin (xs.length + 1),
        if i.val < j.val ∧ (x :: xs).get j < (x :: xs).get i then (1 : Nat) else 0
    rw [Fin.sum_univ_succ]
    have h0 : ((x :: xs).get (0 : Fin (xs.length + 1))) = x := rfl
    have hs : ∀ i : Fin xs.length, (x :: xs).get i.succ = xs.get i := fun i => rfl
    have hrow0 : (∑ j : Fin (xs.length + 1),
        if (0 : Fin (xs.length + 1)).val < j.val ∧
            (x :: xs).get j < (x :: xs).get (0 : Fin (xs.length + 1))
          then (1 : Nat) else 0) = xs.countP (fun y => decide (y < x)) := by
      rw [Fin.sum_univ_succ]
      simp only [h0, hs, Fin.val_zero, Fin.val_succ]
      rw [if_neg (by omega)]
      rw [zero_add, ← sum_indicator_eq_countP xs (fun y => decide (y < x))]
      refine Finset.sum_congr rfl ?_
      intro j _
      by_cases h : xs.get j < x
      · simp [h]
      · simp [h]
    have hrows : (∑ i : Fin xs.length, ∑ j : Fin (xs.length + 1),
        if (Fin.succ i).val < j.val ∧ (x :: xs).get j < (x :: xs).get (Fin.succ i)
          then (1 : Nat) else 0) =
        ∑ i : Fin xs.length, ∑ j : Fin xs.length,
          if i.val < j.val ∧ xs.get j < xs.get i then (1 : Nat) else 0 := by
      refine Finset.sum_congr rfl ?_
      intro i _
      rw [Fin.sum_univ_succ]
      simp only [h0, hs, Fin.val_succ, Fin.val_zero]
      rw [if_neg (by omega)]
      rw [zero_add]
      refine Finset.sum_congr rfl ?_
      intro j _
      congr 1
      simp only [eq_iff_iff]
      constructor
      · rintro ⟨h1, h2⟩
        exact ⟨by omega, h2⟩
      · rintro ⟨h1, h2⟩
        exact ⟨by omega, h2⟩
    rw [hrow0, hrows]

theorem cross_count_append_right (A X Y : List α) :
    cross_count A (X ++ Y) = cross_count A X + cross_count A Y := by
  induction A with
  | nil => simp [cross_count_nil]
  | cons x xs ih =>
    simp only [cross_count_cons, List.countP_append, ih]
    omega

/-- Swapping two distinct entries of a list (with neither value occurring
between them) flips the parity of the inversion count. -/
theorem inversions_swap_parity (l₁ m l₂ : List α) (a b : α) (hab : a ≠ b)
    (ham : a ∉ m) (hbm : b ∉ m) :
    (inversions (l₁ ++ a :: (m ++ b :: l₂)) + inversions (l₁ ++ b :: (m ++ a :: l₂))) % 2
      = 1 := by
  have hma := countP_lt_add_countP_gt m a ham
  have hmb := countP_lt_add_countP_gt m b hbm
  simp only [inversions_append, inversions_cons, List.countP_append, List.countP_cons,
    cross_count_cons_right, cross_count_append_right]
  rcases lt_or_gt_of_ne hab with h | h
  · simp only [h, not_lt_of_gt h, decide_eq_true_eq, if_true, if_false, ite_true, ite_false]
    simp [h, not_lt_of_gt h]
    omega
  · simp [h, not_lt_of_gt h]
    omega

end InversionTheory

section ListSwap

variable {α : Type}

theorem set_append_right_len (X Y : List α) (n : Nat) (w : α) :
    (X ++ Y).set (X.length + n) w = X ++ Y.set n w := by
  induction X with
  | nil => simp
  | cons x xs ih =>
    have harith : (x :: xs).length + n = (xs.length + n) + 1 := by
      simp [List.length_cons]
      omega
    rw [harith]
    show (x :: (xs ++ Y)).set ((xs.length + n) + 1) w = _
    rw [List.set_cons_succ, ih]
    rfl

theorem set_append_right_pos (X Y : List α) (n k : Nat) (w : α) (hk : k = X.length + n) :
    (X ++ Y).set k w = X ++ Y.set n w := by
  rw [hk]
  exact set_append_right_len X Y n w

theorem set_append_cons_pos (X : List α) (v w : α) (Y : List α) (n : Nat) (hn : n = X.length) :
    (X ++ v :: Y).set n w = X ++ w :: Y := by
  rw [hn]
  have := set_append_right_len X (v :: Y) 0 w
  simpa using this

/-- Decomposition of a list around two positions `p < q`, together with the
effect of writing the value at `q` into `p` and the value at `p` into `q`
(the swap performed by `move_tile`). -/
theorem swap_decomp (L : List α) (d₀ : α) (p q : Nat) (hpq : p < q) (hq : q < L.length) :
    ∃ l₁ m l₂ : List α,
      L = l₁ ++ (L.getD p d₀) :: (m ++ (L.getD q d₀) :: l₂) ∧
      (L.set p (L.getD q d₀)).set q (L.getD p d₀) =
        l₁ ++ (L.getD q d₀) :: (m ++ (L.getD p d₀) :: l₂) ∧
      l₁.length = p ∧ m.length = q - p - 1 := by
  have hp : p < L.length := lt_trans hpq hq
  have hlen1 : (L.take p).length = p := by
    rw [List.length_take]
    omega
  have hlen2 : ((L.drop (p + 1)).take (q - p - 1)).length = q - p - 1 := by
    rw [List.length_take, List.length_drop]
    omega
  have hL : L = L.take p ++ (L.getD p d₀) ::
      ((L.drop (p + 1)).take (q - p - 1) ++ (L.getD q d₀) :: L.drop (q + 1)) := by
    conv_lhs => rw [← List.take_append_drop p L]
    congr 1
    rw [List.drop_eq_getElem_cons hp, List.getD_eq_getElem L d₀ hp]
    congr 1
    conv_lhs => rw [← List.take_append_drop (q - p - 1) (L.drop (p + 1))]
    congr 1
    rw [List.drop_drop]
    have hqe : p + 1 + (q - p - 1) = q := by omega
    rw [hqe, List.drop_eq_getElem_cons hq, List.getD_eq_getElem L d₀ hq]
  refine ⟨L.take p, (L.drop (p + 1)).take (q - p - 1), L.drop (q + 1), hL, ?_, hlen1, hlen2⟩
  have step1 : ∀ w : α, L.set p w = L.take p ++ w ::
      ((L.drop (p + 1)).take (q - p - 1) ++ (L.getD q d₀) :: L.drop (q + 1)) := by
    intro w
    conv_lhs => rw [hL]
    exact set_append_cons_pos _ _ _ _ p hlen1.symm
  rw [step1 (L.getD q d₀)]
  rw [set_append_right_pos (L.take p)
    ((L.getD q d₀) :: ((L.drop (p + 1)).take (q - p - 1) ++ (L.getD q d₀) :: L.drop (q + 1)))
    (((L.drop (p + 1)).take (q - p - 1)).length + 1) q (L.getD p d₀) (by rw [hlen1, hlen2]; omega)]
  rw [List.set_cons_succ]
  rw [set_append_cons_pos _ _ _ _ _ rfl]

theorem nodup_decomp_facts (l₁ m l₂ : List α) (a b : α)
    (h : (l₁ ++ a :: (m ++ b :: l₂)).Nodup) : a ≠ b ∧ a ∉ m ∧ b ∉ m := by
  have h1 : (a :: (m ++ b :: l₂)).Nodup :=
    (List.sublist_append_right l₁ _).nodup h
  rw [List.nodup_cons] at h1
  obtain ⟨ha, h2⟩ := h1
  refine ⟨?_, ?_, ?_⟩
  · intro hab
    exact ha (by rw [hab]; exact List.mem_append_right m (List.mem_cons_self b l₂))
  · intro ham
    exact ha (List.mem_append_left _ ham)
  · intro hbm
    exact (List.disjoint_of_nodup_append h2) hbm (List.mem_cons_self b l₂)

theorem nodup_indexOf_eq [DecidableEq α] :
    ∀ (N : List α), N.Nodup → ∀ (v : α) (d : α) (i : Nat) (hi : i < N.length),
      N.getD i d = v → N.indexOf v = i := by
  intro N
  induction N with
  | nil => intro _ v d i hi; simp at hi
  | cons x xs ih =>
    intro hnd v d i hi hv
    rw [List.nodup_cons] at hnd
    match i with
    | 0 =>
      have : x = v := by simpa using hv
      subst this
      simp [List.indexOf_cons_self]
    | j + 1 =>
      have hj : j < xs.length := by
        simpa [List.length_cons] using hi
      have hxv : xs.getD j d = v := by simpa using hv
      have hvmem : v ∈ xs := by
        rw [← hxv, List.getD_eq_getElem xs d hj]
        exact List.getElem_mem hj
      have hxne : x ≠ v := by
        intro h
        exact hnd.1 (h ▸ hvmem)
      rw [List.indexOf_cons_ne _ (by simpa using hxne), ih hnd.2 v d j hj hxv]

end ListSwap

section BoardLemmas

theorem natAbs_sub_parity (u v : Nat) : ((u : Int) - v).natAbs % 2 = (u + v) % 2 := by
  omega

theorem Board.y_eq (b : Board) (t : Nat) : b.y t = b.board.indexOf t / b.width := by
  unfold Board.y
  by_cases h : b.board.indexOf t = 0
  · simp [h]
  · simp [h]

/-- `solvable` in terms of the abstract inversion count (via the proved
correctness of `count_sort`). -/
theorem solvable_eq_inversions (b : Board) :
    b.solvable = decide ((inversions (b.board.map (subst_empty b.size)) +
      (((b.x EMPTY_TILE : Int) - ((b.width : Int) - 1)).natAbs +
        ((b.y EMPTY_TILE : Int) - ((b.height : Int) - 1)).natAbs)) % 2 = 0) := by
  show decide (((count_sort (b.board.map (fun t => if t ≠ EMPTY_TILE then t else b.size + 1))).2 +
      (((b.x EMPTY_TILE : Int) - ((b.width : Int) - 1)).natAbs +
        ((b.y EMPTY_TILE : Int) - ((b.height : Int) - 1)).natAbs)) % 2 = 0) = _
  rw [(count_sort_correct (b.board.map (fun t => if t ≠ EMPTY_TILE then t else b.size + 1))).2.2]
  rfl

theorem coord_mod (hw v u : Nat) (hu : u < hw) : (hw * v + u) % hw = u := by
  rw [Nat.mul_add_mod]
  exact Nat.mod_eq_of_lt hu

theorem coord_div (hw v u : Nat) (hu : u < hw) : (hw * v + u) / hw = v := by
  rw [Nat.mul_add_div (by omega)]
  rw [Nat.div_eq_of_lt hu]
  omega

theorem getD_append_cons_len {α : Type} (X : List α) (v : α) (Y : List α) (d : α) :
    (X ++ v :: Y).getD X.length d = v := by
  induction X with
  | nil => rfl
  | cons x xs ih => simpa using ih

theorem getD_append_right_len {α : Type} (X Y : List α) (n : Nat) (d : α) :
    (X ++ Y).getD (X.length + n) d = Y.getD n d := by
  induction X with
  | nil => simp
  | cons x xs ih =>
    have harith : (x :: xs).length + n = (xs.length + n) + 1 := by
      simp [List.length_cons]
      omega
    rw [harith]
    show (x :: (xs ++ Y)).getD ((xs.length + n) + 1) d = _
    rw [List.getD_cons_succ, ih]

theorem getD_append_cons_pos {α : Type} (X : List α) (v : α) (Y : List α) (d : α) (k : Nat)
    (hk : k = X.length) : (X ++ v :: Y).getD k d = v := by
  rw [hk]
  exact getD_append_cons_len X v Y d

theorem getD_append_right_pos {α : Type} (X Y : List α) (n k : Nat) (d : α)
    (hk : k = X.length + n) : (X ++ Y).getD k d = Y.getD n d := by
  rw [hk]
  exact getD_append_right_len X Y n d

theorem swap_perm {α : Type} (l₁ m l₂ : List α) (a bb : α) :
    (l₁ ++ bb :: (m ++ a :: l₂)).Perm (l₁ ++ a :: (m ++ bb :: l₂)) := by
  refine List.Perm.append_left l₁ ?_
  refine (List.Perm.cons bb List.perm_middle).trans ?_
  refine (List.Perm.swap a bb _).trans ?_
  exact List.Perm.cons a List.perm_middle.symm

/-- Combined facts about the cell swap performed by a legal move, for a
board that is a permutation of `{0, ..., n-1}`: the swapped list is a
permutation of the original, the inversion count of the empty-substituted
list flips parity, and the two swapped positions hold each other's values. -/
theorem swap_cells_facts (n : Nat) (L : List Nat) (p q : Nat)
    (hperm : L.Perm (List.range n)) (hpq : p < q) (hq : q < L.length) :
    ((L.set p (L.getD q 0)).set q (L.getD p 0)).Perm L ∧
    (inversions (((L.set p (L.getD q 0)).set q (L.getD p 0)).map (subst_empty n)) +
      inversions (L.map (subst_empty n))) % 2 = 1 ∧
    ((L.set p (L.getD q 0)).set q (L.getD p 0)).getD p 0 = L.getD q 0 ∧
    ((L.set p (L.getD q 0)).set q (L.getD p 0)).getD q 0 = L.getD p 0 := by
  have hnd : L.Nodup := (hperm.nodup_iff).mpr (List.nodup_range n)
  have hvals : ∀ t ∈ L, t < n := fun t ht => List.mem_range.mp (hperm.subset ht)
  have hmapnd : (L.map (subst_empty n)).Nodup := by
    refine List.Nodup.map_on ?_ hnd
    intro x hx y hy hxy
    have hvx := hvals x hx
    have hvy := hvals y hy
    unfold subst_empty EMPTY_TILE at hxy
    split_ifs at hxy <;> omega
  obtain ⟨l₁, m, l₂, hL, hswap, hlen1, hlen2⟩ := swap_decomp L 0 p q hpq hq
  set A := L.getD p 0 with hA
  set B := L.getD q 0 with hB
  rw [hswap]
  have hq2 : q = l₁.length + (m.length + 1) := by omega
  refine ⟨?_, ?_, ?_, ?_⟩
  · conv_rhs => rw [hL]
    exact swap_perm l₁ m l₂ A B
  · have hmnd : ((l₁ ++ A :: (m ++ B :: l₂)).map (subst_empty n)).Nodup := by
      rw [← hL]
      exact hmapnd
    simp only [List.map_append, List.map_cons] at hmnd
    obtain ⟨hab, ham, hbm⟩ := nodup_decomp_facts _ _ _ _ _ hmnd
    have hpar := inversions_swap_parity (l₁.map (subst_empty n)) (m.map (subst_empty n))
      (l₂.map (subst_empty n)) (subst_empty n A) (subst_empty n B) hab ham hbm
    rw [hL]
    simp only [List.map_append, List.map_cons]
    omega
  · exact getD_append_cons_pos _ _ _ _ p hlen1.symm
  · rw [getD_append_right_pos l₁ (B :: (m ++ A :: l₂)) (m.length + 1) q 0 hq2]
    rw [List.getD_cons_succ]
    exact getD_append_cons_pos _ _ _ _ _ rfl

/-- After a legal move: if the new cell list `N` is a permutation of the
old one, flips the inversion parity of the empty-substituted list, and has
the empty slot at `(nxt, nyt)` one grid step away from the old empty slot,
then `solvable` is unchanged. -/
theorem move_core_post (b : Board) (nxt nyt : Nat) (N : List Nat)
    (hperm : b.board.Perm (List.range b.size))
    (hnx : nxt < b.hw) (hny : nyt < b.hw)
    (hstep : nxt + nyt + 1 = b.x EMPTY_TILE + b.y EMPTY_TILE ∨
      b.x EMPTY_TILE + b.y EMPTY_TILE + 1 = nxt + nyt)
    (hNperm : N.Perm b.board)
    (hpar : (inversions (N.map (subst_empty b.size)) +
      inversions (b.board.map (subst_empty b.size))) % 2 = 1)
    (hN0 : N.getD (b.hw * nyt + nxt) 0 = EMPTY_TILE) :
    (Board.mk b.hw N).solvable = b.solvable := by
  have hw1 : 1 ≤ b.hw := by omega
  have hlen : b.board.length = b.size := by rw [hperm.length_eq, List.length_range]
  have hsz : b.size = b.hw * b.hw := by
    show b.hw ^ 2 = b.hw * b.hw
    ring
  have hnd : b.board.Nodup := (hperm.nodup_iff).mpr (List.nodup_range b.size)
  have hidxlt : b.hw * nyt + nxt < b.board.length := by
    have h1 : b.hw * nyt + nxt < b.hw * (nyt + 1) := by
      rw [Nat.mul_succ]
      omega
    have h2 : b.hw * (nyt + 1) ≤ b.hw * b.hw := Nat.mul_le_mul_left _ (by omega)
    omega
  have hNnd : N.Nodup := (hNperm.nodup_iff).mpr hnd
  have hNlen : N.length = b.board.length := hNperm.length_eq
  have hNidx : N.indexOf EMPTY_TILE = b.hw * nyt + nxt := by
    refine nodup_indexOf_eq N hNnd EMPTY_TILE 0 (b.hw * nyt + nxt) ?_ hN0
    omega
  have hx' : (Board.mk b.hw N).x EMPTY_TILE = nxt := by
    show N.indexOf EMPTY_TILE % b.hw = nxt
    rw [hNidx]
    exact coord_mod _ _ _ hnx
  have hy' : (Board.mk b.hw N).y EMPTY_TILE = nyt := by
    rw [Board.y_eq]
    show N.indexOf EMPTY_TILE / b.hw = nyt
    rw [hNidx]
    exact coord_div _ _ _ hnx
  rw [solvable_eq_inversions, solvable_eq_inversions]
  refine decide_eq_decide.mpr ?_
  rw [hx', hy']
  simp only [Board.size, Board.width, Board.height] at hpar ⊢
  omega

/-- A legal `move_tile` preserves `solvable` and permutes the cells. -/
theorem move_tile_solvable (b b2 : Board) (dir : Dir)
    (hperm : b.board.Perm (List.range b.size))
    (hmv : b.move_tile dir = some b2) :
    b2.solvable = b.solvable ∧ b2.hw = b.hw ∧ b2.board.Perm b.board := by
  unfold Board.move_tile at hmv
  by_cases hib : b.move_in_bounds dir
  swap
  · rw [if_neg hib] at hmv
    exact absurd hmv (by simp)
  rw [if_pos hib] at hmv
  unfold Board.move_in_bounds at hib
  rw [decide_eq_true_eq] at hib
  obtain ⟨hb1, hb2, hb3, hb4⟩ := hib
  simp only [Board.width, Board.height] at hb2 hb4
  have hw1 : 1 ≤ b.hw := by omega
  have hlen : b.board.length = b.size := by rw [hperm.length_eq, List.length_range]
  have hsz : b.size = b.hw * b.hw := by
    show b.hw ^ 2 = b.hw * b.hw
    ring
  have hnd : b.board.Nodup := (hperm.nodup_iff).mpr (List.nodup_range b.size)
  have h0mem : EMPTY_TILE ∈ b.board := by
    refine (hperm.mem_iff).mpr (List.mem_range.mpr ?_)
    show 0 < b.size
    have hpos : 0 < b.hw * b.hw := Nat.mul_pos (by omega) (by omega)
    omega
  have hi0 : b.board.indexOf EMPTY_TILE < b.board.length :=
    List.indexOf_lt_length.mpr h0mem
  have hx0 : b.x EMPTY_TILE = b.board.indexOf EMPTY_TILE % b.hw := rfl
  have hy0 : b.y EMPTY_TILE = b.board.indexOf EMPTY_TILE / b.hw := Board.y_eq b EMPTY_TILE
  have hx0lt : b.x EMPTY_TILE < b.hw := by
    rw [hx0]
    exact Nat.mod_lt _ (by omega)
  have hy0lt : b.y EMPTY_TILE < b.hw := by
    rw [hy0]
    refine Nat.div_lt_of_lt_mul ?_
    omega
  have hoidx : b.hw * (b.y EMPTY_TILE) + b.x EMPTY_TILE = b.board.indexOf EMPTY_TILE := by
    rw [hx0, hy0]
    exact Nat.div_add_mod _ _
  have hoidxlt : b.hw * (b.y EMPTY_TILE) + b.x EMPTY_TILE < b.board.length := by
    rw [hoidx]
    exact hi0
  have hL0 : b.board.getD (b.hw * (b.y EMPTY_TILE) + b.x EMPTY_TILE) 0 = EMPTY_TILE := by
    rw [hoidx, List.getD_eq_getElem _ _ hi0]
    exact List.getElem_indexOf hi0
  -- the target coordinates as naturals, one step from the empty slot
  have htgt : (b.move_target dir).1.toNat + (b.move_target dir).2.toNat + 1 =
        b.x EMPTY_TILE + b.y EMPTY_TILE ∨
      b.x EMPTY_TILE + b.y EMPTY_TILE + 1 =
        (b.move_target dir).1.toNat + (b.move_target dir).2.toNat := by
    cases dir <;> simp only [Board.move_target] at hb1 hb2 hb3 hb4 ⊢ <;> omega
  have hnxlt : (b.move_target dir).1.toNat < b.hw := by omega
  have hnylt : (b.move_target dir).2.toNat < b.hw := by omega
  set nxt := (b.move_target dir).1.toNat with hnxt
  set nyt := (b.move_target dir).2.toNat with hnyt
  have hb2v : b2 = Board.mk b.hw ((b.board.set (b.hw * nyt + nxt)
      (b.board.getD (b.hw * (b.y EMPTY_TILE) + b.x EMPTY_TILE) 0)).set
      (b.hw * (b.y EMPTY_TILE) + b.x EMPTY_TILE)
      (b.board.getD (b.hw * nyt + nxt) 0)) := by
    have := hmv
    injection this with h
    exact h.symm
  have hidxlt : b.hw * nyt + nxt < b.board.length := by
    have h1 : b.hw * nyt + nxt < b.hw * (nyt + 1) := by
      rw [Nat.mul_succ]
      omega
    have h2 : b.hw * (nyt + 1) ≤ b.hw * b.hw := Nat.mul_le_mul_left _ (by omega)
    omega
  have hne : b.hw * nyt + nxt ≠ b.hw * (b.y EMPTY_TILE) + b.x EMPTY_TILE := by
    intro he
    have e1 : nxt = b.x EMPTY_TILE := by
      have c1 := coord_mod b.hw nyt nxt hnxlt
      have c2 := coord_mod b.hw (b.y EMPTY_TILE) (b.x EMPTY_TILE) hx0lt
      rw [he] at c1
      omega
    have e2 : nyt = b.y EMPTY_TILE := by
      have c1 := coord_div b.hw nyt nxt hnxlt
      have c2 := coord_div b.hw (b.y EMPTY_TILE) (b.x EMPTY_TILE) hx0lt
      rw [he] at c1
      omega
    omega
  rcases Nat.lt_or_ge (b.hw * nyt + nxt) (b.hw * (b.y EMPTY_TILE) + b.x EMPTY_TILE) with hlt | hge
  · -- moved-to index is before the empty index
    obtain ⟨hperm2, hpar, hgp, hgq⟩ := swap_cells_facts b.size b.board
      (b.hw * nyt + nxt) (b.hw * (b.y EMPTY_TILE) + b.x EMPTY_TILE) hperm hlt hoidxlt
    rw [hb2v]
    refine ⟨?_, rfl, hperm2⟩
    refine move_core_post b nxt nyt _ hperm hnxlt hnylt htgt hperm2 hpar ?_
    rw [hgp]
    exact hL0
  · have hlt2 : b.hw * (b.y EMPTY_TILE) + b.x EMPTY_TILE < b.hw * nyt + nxt := by omega
    obtain ⟨hperm2, hpar, hgp, hgq⟩ := swap_cells_facts b.size b.board
      (b.hw * (b.y EMPTY_TILE) + b.x EMPTY_TILE) (b.hw * nyt + nxt) hperm hlt2 hidxlt
    have hcomm : (b.board.set (b.hw * nyt + nxt)
        (b.board.getD (b.hw * (b.y EMPTY_TILE) + b.x EMPTY_TILE) 0)).set
        (b.hw * (b.y EMPTY_TILE) + b.x EMPTY_TILE)
        (b.board.getD (b.hw * nyt + nxt) 0) =
        (b.board.set (b.hw * (b.y EMPTY_TILE) + b.x EMPTY_TILE)
        (b.board.getD (b.hw * nyt + nxt) 0)).set (b.hw * nyt + nxt)
        (b.board.getD (b.hw * (b.y EMPTY_TILE) + b.x EMPTY_TILE) 0) :=
      List.set_comm _ _ _ hne
    rw [hb2v, hcomm]
    refine ⟨?_, rfl, hperm2⟩
    refine move_core_post b nxt nyt _ hperm hnxlt hnylt htgt hperm2 hpar ?_
    rw [hgq]
    exact hL0

/-- Inversion counts agree for two relabelings that induce the same strict
order on the list's elements. -/
theorem inversions_map_congr {β : Type} [LinearOrder β] (L : List Nat) (f g : Nat → β)
    (h : ∀ x ∈ L, ∀ y ∈ L, (f y < f x ↔ g y < g x)) :
    inversions (L.map f) = inversions (L.map g) := by
  induction L with
  | nil => rfl
  | cons x xs ih =>
    simp only [List.map_cons, inversions_cons]
    rw [List.countP_map, List.countP_map]
    have h1 : xs.countP ((fun y => decide (y < f x)) ∘ f) =
        xs.countP ((fun y => decide (y < g x)) ∘ g) := by
      refine List.countP_congr ?_
      intro a ha
      simp only [Function.comp_apply, decide_eq_true_eq]
      constructor
      · intro hlt
        exact (h x (by simp) a (by simp [ha])).mp hlt
      · intro hlt
        exact (h x (by simp) a (by simp [ha])).mpr hlt
    rw [h1, ih]
    intro a ha bb hb
    exact h a (by simp [ha]) bb (by simp [hb])

/-- `solvable` is invariant under a whole sequence of legal moves. -/
theorem apply_moves_solvable :
    ∀ (ds : List Dir) (b b2 : Board), b.board.Perm (List.range b.size) →
      b.apply_moves ds = some b2 → b2.solvable = b.solvable := by
  intro ds
  induction ds with
  | nil =>
    intro b b2 _ h
    unfold Board.apply_moves at h
    injection h with h
    rw [← h]
  | cons dir ds ih =>
    intro b b2 hperm h
    unfold Board.apply_moves at h
    obtain ⟨b1, hb1, hrest⟩ := Option.bind_eq_some.mp h
    obtain ⟨hsolv, hhw, hpermstep⟩ := move_tile_solvable b b1 dir hperm hb1
    have hsize : b1.size = b.size := by
      show b1.hw ^ 2 = b.hw ^ 2
      rw [hhw]
    have hperm1 : b1.board.Perm (List.range b1.size) := by
      rw [hsize]
      exact hpermstep.trans hperm
    rw [ih b1 b2 hperm1 hrest, hsolv]

end BoardLemmas

section LoopInvariants

/-- Unfolding equation of the search loop when the open list is empty. -/
theorem astar_loop_nil_eq (goal : Board) (start_item : Item) (fuel : Nat) (st : AState)
    (hopen : st.openL = []) :
    astar_loop goal start_item (fuel + 1) st = (SolveOut.exhausted, st) := by
  rw [astar_loop, hopen]

/-- Unfolding equation of the search loop when an item is popped. -/
theorem astar_loop_cons_eq (goal : Board) (start_item : Item) (fuel : Nat) (st : AState)
    (curr : Item) (rest : List Item) (hopen : st.openL = curr :: rest) :
    astar_loop goal start_item (fuel + 1) st =
      (if curr.board.beq goal then
        (match traceback st.item_by_idx start_item curr st.item_by_idx.length with
          | some path =>
            (SolveOut.found ((path.map (fun it => PMove.mk it.direction it.board)).reverse),
              { st with openL := rest })
          | none => (SolveOut.badIndex, { st with openL := rest }))
      else astar_loop goal start_item fuel
        (curr.board.successors.foldl
          (push_successor goal (curr.g + 1) (st.item_by_idx.findIdx (fun it => it.beq curr)))
          { st with openL := rest })) := by
  rw [astar_loop, hopen]

/-- One successor push preserves the enqueue discipline: the tail of the
push log stays duplicate-free and inside the visited set. -/
theorem push_successor_pushed_inv (goal : Board) (g curr_idx : Nat) (st : AState)
    (s : Dir × Board) (c0 : List Nat) (t : List (List Nat))
    (hp : st.pushed = c0 :: t) (hnd : t.Nodup) (hsub : ∀ c ∈ t, c ∈ st.visited) :
    ∃ t2, (push_successor goal g curr_idx st s).pushed = c0 :: t2 ∧ t2.Nodup ∧
      (∀ c ∈ t2, c ∈ (push_successor goal g curr_idx st s).visited) := by
  unfold push_successor
  by_cases hv : st.visited.contains s.2.board
  · rw [if_pos hv]
    exact ⟨t, hp, hnd, hsub⟩
  · rw [if_neg hv]
    refine ⟨t ++ [s.2.board], ?_, ?_, ?_⟩
    · show st.pushed ++ [s.2.board] = c0 :: (t ++ [s.2.board])
      rw [hp]
      rfl
    · rw [List.nodup_append]
      refine ⟨hnd, List.nodup_singleton _, ?_⟩
      intro c hc
      simp only [List.mem_singleton]
      intro he
      refine hv ?_
      refine List.elem_eq_true_of_mem ?_
      rw [← he]
      exact hsub c hc
    · intro c hc
      show c ∈ s.2.board :: st.visited
      rcases List.mem_append.mp hc with h | h
      · exact List.mem_cons_of_mem _ (hsub c h)
      · simp only [List.mem_singleton] at h
        rw [h]
        exact List.mem_cons_self _ _

theorem foldl_push_pushed_inv (goal : Board) (g curr_idx : Nat) :
    ∀ (succs : List (Dir × Board)) (st : AState) (c0 : List Nat) (t : List (List Nat)),
      st.pushed = c0 :: t → t.Nodup → (∀ c ∈ t, c ∈ st.visited) →
      ∃ t2, (succs.foldl (push_successor goal g curr_idx) st).pushed = c0 :: t2 ∧
        t2.Nodup ∧
        (∀ c ∈ t2, c ∈ (succs.foldl (push_successor goal g curr_idx) st).visited) := by
  intro succs
  induction succs with
  | nil =>
    intro st c0 t hp hnd hsub
    exact ⟨t, hp, hnd, hsub⟩
  | cons s ss ih =>
    intro st c0 t hp hnd hsub
    obtain ⟨t1, hp1, hnd1, hsub1⟩ := push_successor_pushed_inv goal g curr_idx st s c0 t hp hnd hsub
    exact ih (push_successor goal g curr_idx st s) c0 t1 hp1 hnd1 hsub1

theorem astar_loop_pushed_inv (goal : Board) (start_item : Item) :
    ∀ (fuel : Nat) (st : AState) (c0 : List Nat) (t : List (List Nat)),
      st.pushed = c0 :: t → t.Nodup → (∀ c ∈ t, c ∈ st.visited) →
      ∃ t2, (astar_loop goal start_item fuel st).2.pushed = c0 :: t2 ∧ t2.Nodup ∧
        (∀ c ∈ t2, c ∈ (astar_loop goal start_item fuel st).2.visited) := by
  intro fuel
  induction fuel with
  | zero =>
    intro st c0 t hp hnd hsub
    exact ⟨t, hp, hnd, hsub⟩
  | succ fuel ih =>
    intro st c0 t hp hnd hsub
    match hopen : st.openL with
    | [] =>
      rw [astar_loop_nil_eq goal start_item fuel st hopen]
      exact ⟨t, hp, hnd, hsub⟩
    | curr :: rest =>
      rw [astar_loop_cons_eq goal start_item fuel st curr rest hopen]
      by_cases hgoal : curr.board.beq goal
      · rw [if_pos hgoal]
        match htb : traceback st.item_by_idx start_item curr st.item_by_idx.length with
        | some path => exact ⟨t, hp, hnd, hsub⟩
        | none => exact ⟨t, hp, hnd, hsub⟩
      · rw [if_neg hgoal]
        obtain ⟨t1, hp1, hnd1, hsub1⟩ := foldl_push_pushed_inv goal (curr.g + 1)
          (st.item_by_idx.findIdx (fun it => it.beq curr)) curr.board.successors
          { st with openL := rest } c0 t hp hnd hsub
        exact ih _ c0 t1 hp1 hnd1 hsub1

theorem Item.beq_refl (i : Item) : i.beq i = true := by
  simp [Item.beq, Board.beq]

theorem Item.beq_fields (i1 i2 : Item) (h : i1.beq i2 = true) :
    i1.direction = i2.direction ∧ i1.board.board = i2.board.board := by
  unfold Item.beq Board.beq at h
  simp only [Bool.and_eq_true, beq_iff_eq] at h
  exact ⟨h.1.2, h.1.1.2⟩

theorem mem_heap_insert (it x : Item) :
    ∀ l : List Item, x ∈ heap_insert l it ↔ x = it ∨ x ∈ l := by
  intro l
  induction l with
  | nil => simp [heap_insert]
  | cons y ys ih =>
    unfold heap_insert
    by_cases hlt : Item.lt it y
    · rw [if_pos hlt]
      simp [List.mem_cons]
    · rw [if_neg hlt]
      simp only [List.mem_cons, ih]
      tauto

theorem head?_append_some {α : Type} (l l2 : List α) (a : α) (h : l.head? = some a) :
    (l ++ l2).head? = some a := by
  cases l with
  | nil => simp at h
  | cons x xs => simpa using h

/-- The traceback loop succeeds and walks back to the start item whenever
the parent indices strictly decrease and index 0 holds the start item. -/
theorem traceback_spec (items : List Item) (start_item : Item)
    (hd : items.head? = some start_item)
    (hpar : ∀ (k : Nat) (hk : k < items.length), 0 < k →
      0 ≤ (items.get ⟨k, hk⟩).parent_index ∧
        (items.get ⟨k, hk⟩).parent_index.toNat < k) :
    ∀ (j : Nat), ∀ (hj : j < items.length), ∀ (fuel : Nat), j < fuel →
      ∃ path : List Item, traceback items start_item (items.get ⟨j, hj⟩) fuel = some path ∧
        path.head? = some (items.get ⟨j, hj⟩) ∧
        ∃ last, path.getLast? = some last ∧ last.beq start_item = true := by
  intro j
  induction j using Nat.strong_induction_on with
  | _ j ih =>
    intro hj fuel hfuel
    obtain ⟨fuel2, rfl⟩ : ∃ f, fuel = f + 1 := ⟨fuel - 1, by omega⟩
    by_cases hs : (items.get ⟨j, hj⟩).beq start_item
    · refine ⟨[items.get ⟨j, hj⟩], ?_, rfl, items.get ⟨j, hj⟩, rfl, hs⟩
      rw [traceback, if_pos hs]
    · have hj0 : 0 < j := by
        rcases Nat.eq_zero_or_pos j with h0 | h0
        · exfalso
          have hget0 : items.get ⟨j, hj⟩ = start_item := by
            subst h0
            cases items with
            | nil => simp at hj
            | cons y ys =>
              have : y = start_item := by simpa using hd
              simpa using this
          rw [hget0] at hs
          exact hs (Item.beq_refl start_item)
        · exact h0
      obtain ⟨hge, hlt⟩ := hpar j hj hj0
      have hplt : (items.get ⟨j, hj⟩).parent_index.toNat < items.length := by omega
      have hlook : items.get? (items.get ⟨j, hj⟩).parent_index.toNat =
          some (items.get ⟨(items.get ⟨j, hj⟩).parent_index.toNat, hplt⟩) :=
        List.get?_eq_get hplt
      obtain ⟨path2, hpath2, hhead2, last2, hlast2, hbeq2⟩ :=
        ih (items.get ⟨j, hj⟩).parent_index.toNat hlt hplt fuel2 (by omega)
      refine ⟨items.get ⟨j, hj⟩ :: path2, ?_, rfl, last2, ?_, hbeq2⟩
      · rw [traceback, if_neg hs, hlook]
        show (traceback items start_item
          (items.get ⟨(items.get ⟨j, hj⟩).parent_index.toNat, hplt⟩) fuel2).map
            (fun path => items.get ⟨j, hj⟩ :: path) = _
        rw [hpath2]
        rfl
      · cases path2 with
        | nil => simp at hhead2
        | cons p0 ps => simpa using hlast2

theorem push_successor_table_inv (goal : Board) (g curr_idx : Nat) (st : AState)
    (s : Dir × Board) (start_item : Item)
    (hhead : st.item_by_idx.head? = some start_item)
    (hpar : ∀ (k : Nat) (hk : k < st.item_by_idx.length), 0 < k →
      0 ≤ (st.item_by_idx.get ⟨k, hk⟩).parent_index ∧
        (st.item_by_idx.get ⟨k, hk⟩).parent_index.toNat < k)
    (hopen : ∀ it ∈ st.openL, it ∈ st.item_by_idx)
    (hcidx : curr_idx < st.item_by_idx.length) :
    (push_successor goal g curr_idx st s).item_by_idx.head? = some start_item ∧
    (∀ (k : Nat) (hk : k < (push_successor goal g curr_idx st s).item_by_idx.length), 0 < k →
      0 ≤ ((push_successor goal g curr_idx st s).item_by_idx.get ⟨k, hk⟩).parent_index ∧
        ((push_successor goal g curr_idx st s).item_by_idx.get ⟨k, hk⟩).parent_index.toNat < k) ∧
    (∀ it ∈ (push_successor goal g curr_idx st s).openL,
      it ∈ (push_successor goal g curr_idx st s).item_by_idx) ∧
    st.item_by_idx.length ≤ (push_successor goal g curr_idx st s).item_by_idx.length := by
  unfold push_successor
  by_cases hv : st.visited.contains s.2.board
  · rw [if_pos hv]
    exact ⟨hhead, hpar, hopen, le_rfl⟩
  · rw [if_neg hv]
    refine ⟨?_, ?_, ?_, ?_⟩
    · exact head?_append_some _ _ _ hhead
    · intro k hk hk0
      show (0 : Int) ≤ ((st.item_by_idx ++
          [mk_item goal g (some s.1) s.2 (Int.ofNat curr_idx)]).get ⟨k, hk⟩).parent_index ∧
        ((st.item_by_idx ++
          [mk_item goal g (some s.1) s.2 (Int.ofNat curr_idx)]).get ⟨k, hk⟩).parent_index.toNat < k
      have hk2 : k < st.item_by_idx.length + 1 := by
        simpa [List.length_append] using hk
      rcases Nat.lt_or_ge k st.item_by_idx.length with hlt | hge
      · have hgetl : (st.item_by_idx ++
            [mk_item goal g (some s.1) s.2 (Int.ofNat curr_idx)]).get ⟨k, hk⟩ =
            st.item_by_idx.get ⟨k, hlt⟩ := by
          show (st.item_by_idx ++ _)[k] = _
          rw [List.getElem_append_left hlt]
          rfl
        rw [hgetl]
        exact hpar k hlt hk0
      · have hkeq : k = st.item_by_idx.length := by omega
        have hgetr : (st.item_by_idx ++
            [mk_item goal g (some s.1) s.2 (Int.ofNat curr_idx)]).get ⟨k, hk⟩ =
            mk_item goal g (some s.1) s.2 (Int.ofNat curr_idx) := by
          show (st.item_by_idx ++ _)[k] = _
          subst hkeq
          exact List.getElem_concat_length _ _ _ rfl _
        rw [hgetr]
        constructor
        · exact Int.ofNat_nonneg curr_idx
        · show (Int.ofNat curr_idx).toNat < k
          have htn : (Int.ofNat curr_idx).toNat = curr_idx := rfl
          omega
    · intro it hit
      rcases (mem_heap_insert _ it st.openL).mp hit with h | h
      · rw [h]
        exact List.mem_append_right _ (List.mem_singleton.mpr rfl)
      · exact List.mem_append_left _ (hopen it h)
    · simp [List.length_append]

theorem foldl_push_table_inv (goal : Board) (start_item : Item) (g curr_idx : Nat) :
    ∀ (succs : List (Dir × Board)) (st : AState),
      st.item_by_idx.head? = some start_item →
      (∀ (k : Nat) (hk : k < st.item_by_idx.length), 0 < k →
        0 ≤ (st.item_by_idx.get ⟨k, hk⟩).parent_index ∧
          (st.item_by_idx.get ⟨k, hk⟩).parent_index.toNat < k) →
      (∀ it ∈ st.openL, it ∈ st.item_by_idx) →
      curr_idx < st.item_by_idx.length →
      (succs.foldl (push_successor goal g curr_idx) st).item_by_idx.head? = some start_item ∧
      (∀ (k : Nat)
        (hk : k < (succs.foldl (push_successor goal g curr_idx) st).item_by_idx.length), 0 < k →
        0 ≤ ((succs.foldl (push_successor goal g curr_idx) st).item_by_idx.get
          ⟨k, hk⟩).parent_index ∧
          ((succs.foldl (push_successor goal g curr_idx) st).item_by_idx.get
            ⟨k, hk⟩).parent_index.toNat < k) ∧
      (∀ it ∈ (succs.foldl (push_successor goal g curr_idx) st).openL,
        it ∈ (succs.foldl (push_successor goal g curr_idx) st).item_by_idx) := by
  intro succs
  induction succs with
  | nil =>
    intro st h1 h2 h3 _
    exact ⟨h1, h2, h3⟩
  | cons s ss ih =>
    intro st h1 h2 h3 h4
    obtain ⟨g1, g2, g3, g4⟩ := push_successor_table_inv goal g curr_idx st s start_item h1 h2 h3 h4
    exact ih (push_successor goal g curr_idx st s) g1 g2 g3 (by omega)

/-- Whenever the search loop returns a found path, its first element is the
(no-direction, start-board) pair and its last element's board is the goal. -/
theorem astar_loop_found_spec (goal : Board) (start_item : Item) :
    ∀ (fuel : Nat) (st : AState),
      st.item_by_idx.head? = some start_item →
      (∀ (k : Nat) (hk : k < st.item_by_idx.length), 0 < k →
        0 ≤ (st.item_by_idx.get ⟨k, hk⟩).parent_index ∧
          (st.item_by_idx.get ⟨k, hk⟩).parent_index.toNat < k) →
      (∀ it ∈ st.openL, it ∈ st.item_by_idx) →
      ∀ (path : List PMove) (stout : AState),
        astar_loop goal start_item fuel st = (.found path, stout) →
        path.head?.map (fun mv => (mv.direction, mv.board.board)) =
          some (start_item.direction, start_item.board.board) ∧
        path.getLast?.map (fun mv => mv.board.board) = some goal.board := by
  intro fuel
  induction fuel with
  | zero =>
    intro st _ _ _ path stout hfound
    simp [astar_loop] at hfound
  | succ fuel ih =>
    intro st hhead hpar hopen path stout hfound
    match hopenL : st.openL with
    | [] =>
      rw [astar_loop_nil_eq goal start_item fuel st hopenL] at hfound
      simp at hfound
    | curr :: rest =>
      rw [astar_loop_cons_eq goal start_item fuel st curr rest hopenL] at hfound
      by_cases hgoal : curr.board.beq goal
      · rw [if_pos hgoal] at hfound
        have hcurr_mem : curr ∈ st.item_by_idx := by
          refine hopen curr ?_
          rw [hopenL]
          exact List.mem_cons_self _ _
        obtain ⟨⟨j, hj⟩, hget⟩ := List.mem_iff_get.mp hcurr_mem
        obtain ⟨tbpath, htb, hhd, last2, hlast, hbeq⟩ :=
          traceback_spec st.item_by_idx start_item hhead hpar j hj st.item_by_idx.length hj
        rw [hget] at htb hhd
        rw [htb] at hfound
        have hpath : path = (tbpath.map (fun it => PMove.mk it.direction it.board)).reverse := by
          have := congrArg Prod.fst hfound
          simp only at this
          exact (SolveOut.found.inj this).symm
        constructor
        · rw [hpath, List.head?_reverse, List.getLast?_map, hlast]
          obtain ⟨hdir, hbb⟩ := Item.beq_fields last2 start_item hbeq
          simp [Option.map_some, hdir, hbb]
        · rw [hpath, List.getLast?_reverse, List.head?_map, hhd]
          have hbb : curr.board.board = goal.board := by
            unfold Board.beq at hgoal
            exact beq_iff_eq.mp hgoal
          simp [Option.map_some, hbb]
      · rw [if_neg hgoal] at hfound
        have hcurr_mem : curr ∈ st.item_by_idx := by
          refine hopen curr ?_
          rw [hopenL]
          exact List.mem_cons_self _ _
        have hcidx : (st.item_by_idx.findIdx (fun it => it.beq curr)) <
            st.item_by_idx.length := by
          rw [List.findIdx_lt_length]
          exact ⟨curr, hcurr_mem, Item.beq_refl curr⟩
        have hrest : ∀ it ∈ ({ st with openL := rest } : AState).openL,
            it ∈ ({ st with openL := rest } : AState).item_by_idx := by
          intro it hit
          refine hopen it ?_
          rw [hopenL]
          exact List.mem_cons_of_mem _ hit
        obtain ⟨g1, g2, g3⟩ := foldl_push_table_inv goal start_item (curr.g + 1)
          (st.item_by_idx.findIdx (fun it => it.beq curr)) curr.board.successors
          { st with openL := rest } hhead hpar hrest hcidx
        exact ih _ g1 g2 g3 path stout hfound

end LoopInvariants

section Claims

set_option maxRecDepth 100000

/-- C3: for every board whose cells are a permutation of `{0..N²-1}`,
`solvable()` returns true iff `I + D` is even, where `I` is the inversion
count of the cell sequence with the empty slot treated as having the
maximum value `N²`, and `D` is the Manhattan distance from the empty
slot's position to the bottom-right corner cell.  (The code substitutes
`N²+1` for the empty slot; both exceed every tile value, so the inversion
count is the same.) -/
theorem claim3_solvable_iff_parity (b : Board)
    (hperm : b.board.Perm (List.range b.size)) :
    b.solvable = true ↔
      (pair_inversions (b.board.map (fun t => if t = EMPTY_TILE then b.size else t)) +
        (((b.x EMPTY_TILE : Int) - ((b.width : Int) - 1)).natAbs +
          ((b.y EMPTY_TILE : Int) - ((b.height : Int) - 1)).natAbs)) % 2 = 0 := by
  have hvals : ∀ t ∈ b.board, t < b.size := fun t ht => List.mem_range.mp (hperm.subset ht)
  have hrel : inversions (b.board.map (subst_empty b.size)) =
      inversions (b.board.map (fun t => if t = EMPTY_TILE then b.size else t)) := by
    refine inversions_map_congr b.board _ _ ?_
    intro x hx y hy
    have hvx := hvals x hx
    have hvy := hvals y hy
    unfold subst_empty EMPTY_TILE
    split_ifs <;> omega
  rw [solvable_eq_inversions, decide_eq_true_iff, hrel,
    inversions_eq_pair_inversions]

/-- C3 witness. -/
theorem claim3_solvable_iff_parity_witness :
    (Board.mk 3 [2, 5, 8, 4, 3, 6, 7, 1, 0]).board.Perm
      (List.range (Board.mk 3 [2, 5, 8, 4, 3, 6, 7, 1, 0]).size) ∧
    ((Board.mk 3 [2, 5, 8, 4, 3, 6, 7, 1, 0]).solvable = true ↔
      (pair_inversions ((Board.mk 3 [2, 5, 8, 4, 3, 6, 7, 1, 0]).board.map
        (fun t => if t = EMPTY_TILE then (Board.mk 3 [2, 5, 8, 4, 3, 6, 7, 1, 0]).size else t)) +
        ((((Board.mk 3 [2, 5, 8, 4, 3, 6, 7, 1, 0]).x EMPTY_TILE : Int) -
            (((Board.mk 3 [2, 5, 8, 4, 3, 6, 7, 1, 0]).width : Int) - 1)).natAbs +
          (((Board.mk 3 [2, 5, 8, 4, 3, 6, 7, 1, 0]).y EMPTY_TILE : Int) -
            (((Board.mk 3 [2, 5, 8, 4, 3, 6, 7, 1, 0]).height : Int) - 1)).natAbs)) % 2 = 0) :=
  ⟨by decide, claim3_solvable_iff_parity (Board.mk 3 [2, 5, 8, 4, 3, 6, 7, 1, 0]) (by decide)⟩

/-- C4: `solve` signals a precondition violation — independently of the
search fuel, i.e. before any search work — when the start board is not
solvable, and when the board is larger than 3×3 without the override
flag; with the override set it runs exactly the unguarded search. -/
theorem claim4_solve_preconditions (b : Board) (fuel : Nat) :
    (b.solvable = false → ∀ ow : Bool, b.solve ow fuel = .error "board not solvable") ∧
    (b.solvable = true → (3 < b.width ∨ 3 < b.height) →
      b.solve false fuel = .error "board too large" ∧
      b.solve true fuel = .ok (b.solve_run fuel).1) ∧
    (b.solvable = true → ¬(3 < b.width ∨ 3 < b.height) →
      b.solve false fuel = b.solve true fuel) := by
  refine ⟨?_, ?_, ?_⟩
  · intro hsv ow
    unfold Board.solve
    rw [if_pos (by simp [hsv])]
  · intro hsv hbig
    constructor
    · unfold Board.solve
      rw [if_neg (by simp [hsv]), if_pos (by simpa using hbig)]
    · unfold Board.solve
      rw [if_neg (by simp [hsv]), if_neg (by simp)]
  · intro hsv hsmall
    unfold Board.solve
    rw [if_neg (by simp [hsv])]
    rw [if_neg (show ¬(¬(false : Bool) = true ∧ (3 < b.width ∨ 3 < b.height)) from
      fun hcon => hsmall hcon.2)]
    rw [if_neg (show ¬(¬(true : Bool) = true ∧ (3 < b.width ∨ 3 < b.height)) from by simp)]
    rw [if_neg (by simp [hsv])]

/-- C4 witness: an unsolvable 3×3 board and an oversized solvable 4×4 board. -/
theorem claim4_solve_preconditions_witness :
    (Board.mk 3 [2, 1, 3, 4, 5, 6, 7, 8, 0]).solvable = false ∧
    (Board.mk 3 [2, 1, 3, 4, 5, 6, 7, 8, 0]).solve true 0 = .error "board not solvable" ∧
    (Board.mk 4 [1, 2, 3, 4, 5, 6, 7, 8, 9, 10, 11, 12, 13, 14, 15, 0]).solvable = true ∧
    (3 < (Board.mk 4 [1, 2, 3, 4, 5, 6, 7, 8, 9, 10, 11, 12, 13, 14, 15, 0]).width ∨
      3 < (Board.mk 4 [1, 2, 3, 4, 5, 6, 7, 8, 9, 10, 11, 12, 13, 14, 15, 0]).height) ∧
    (Board.mk 4 [1, 2, 3, 4, 5, 6, 7, 8, 9, 10, 11, 12, 13, 14, 15, 0]).solve false 0 =
      .error "board too large" ∧
    (Board.mk 4 [1, 2, 3, 4, 5, 6, 7, 8, 9, 10, 11, 12, 13, 14, 15, 0]).solve true 0 =
      .ok ((Board.mk 4 [1, 2, 3, 4, 5, 6, 7, 8, 9, 10, 11, 12, 13, 14, 15, 0]).solve_run 0).1 :=
  ⟨by decide,
    (claim4_solve_preconditions (Board.mk 3 [2, 1, 3, 4, 5, 6, 7, 8, 0]) 0).1 (by decide) true,
    by decide, by decide,
    ((claim4_solve_preconditions
      (Board.mk 4 [1, 2, 3, 4, 5, 6, 7, 8, 9, 10, 11, 12, 13, 14, 15, 0]) 0).2.1
      (by decide) (by decide)).1,
    ((claim4_solve_preconditions
      (Board.mk 4 [1, 2, 3, 4, 5, 6, 7, 8, 9, 10, 11, 12, 13, 14, 15, 0]) 0).2.1
      (by decide) (by decide)).2⟩

/-- C5: for every board holding a permutation of `{0..N²-1}` and every
sequence of legal moves applied to it, the value of `solvable()` is
unchanged. -/
theorem claim5_solvable_invariant (b b2 : Board) (ds : List Dir)
    (hperm : b.board.Perm (List.range b.size))
    (h : b.apply_moves ds = some b2) :
    b2.solvable = b.solvable :=
  apply_moves_solvable ds b b2 hperm h

/-- C5 witness: two legal moves applied to the solved 3×3 board. -/
theorem claim5_solvable_invariant_witness :
    (Board.mk 3 [1, 2, 3, 4, 5, 6, 7, 8, 0]).board.Perm
      (List.range (Board.mk 3 [1, 2, 3, 4, 5, 6, 7, 8, 0]).size) ∧
    (Board.mk 3 [1, 2, 3, 4, 5, 6, 7, 8, 0]).apply_moves [Dir.u, Dir.l] =
      some (Board.mk 3 [1, 2, 3, 4, 0, 5, 7, 8, 6]) ∧
    (Board.mk 3 [1, 2, 3, 4, 0, 5, 7, 8, 6]).solvable =
      (Board.mk 3 [1, 2, 3, 4, 5, 6, 7, 8, 0]).solvable :=
  ⟨by decide, by decide,
    claim5_solvable_invariant (Board.mk 3 [1, 2, 3, 4, 5, 6, 7, 8, 0])
      (Board.mk 3 [1, 2, 3, 4, 0, 5, 7, 8, 6]) [Dir.u, Dir.l] (by decide) (by decide)⟩

/-- C6: for every list of distinct integers, `count_sort` returns the
sorted version of the list together with the number of index pairs
`i < j` with `L[i] > L[j]`. -/
theorem claim6_count_sort_spec (L : List Int) (hnd : L.Nodup) :
    (count_sort L).1.Sorted (· ≤ ·) ∧ (count_sort L).1.Perm L ∧
      (count_sort L).2 = pair_inversions L := by
  obtain ⟨h1, h2, h3⟩ := count_sort_correct L
  exact ⟨h1, h2, h3.trans (inversions_eq_pair_inversions L)⟩

/-- C6 witness. -/
theorem claim6_count_sort_spec_witness :
    ([3, -1, 2, 0] : List Int).Nodup ∧
    ((count_sort ([3, -1, 2, 0] : List Int)).1.Sorted (· ≤ ·) ∧
      (count_sort ([3, -1, 2, 0] : List Int)).1.Perm [3, -1, 2, 0] ∧
      (count_sort ([3, -1, 2, 0] : List Int)).2 = pair_inversions ([3, -1, 2, 0] : List Int)) :=
  ⟨by decide, claim6_count_sort_spec [3, -1, 2, 0] (by decide)⟩

/-- C10: a `move_tile` call whose direction would take the empty slot
outside the grid returns `None` and leaves the receiver's cells unchanged
even in in-place mode. -/
theorem claim10_move_tile_out_of_bounds (b : Board) (dir : Dir)
    (hout : b.move_in_bounds dir = false) :
    b.move_tile dir = none ∧ b.move_tile_inplace dir = (none, b) := by
  have h1 : b.move_tile dir = none := by
    unfold Board.move_tile
    rw [if_neg (by simp [hout])]
  refine ⟨h1, ?_⟩
  unfold Board.move_tile_inplace
  rw [h1]

/-- C10 witness: moving down from the solved board (empty at bottom-right). -/
theorem claim10_move_tile_out_of_bounds_witness :
    (Board.mk 3 [1, 2, 3, 4, 5, 6, 7, 8, 0]).move_in_bounds Dir.d = false ∧
    ((Board.mk 3 [1, 2, 3, 4, 5, 6, 7, 8, 0]).move_tile Dir.d = none ∧
      (Board.mk 3 [1, 2, 3, 4, 5, 6, 7, 8, 0]).move_tile_inplace Dir.d =
        (none, Board.mk 3 [1, 2, 3, 4, 5, 6, 7, 8, 0])) :=
  ⟨by decide,
    claim10_move_tile_out_of_bounds (Board.mk 3 [1, 2, 3, 4, 5, 6, 7, 8, 0]) Dir.d (by decide)⟩

/-- C1: the solver is not optimal.  On the solvable 3×3 board
`[1,3,5,4,0,8,7,6,2]` an explicit 10-move sequence reaches the goal, yet
`solve` returns a path of 12 moves — contradicting the docstring's promise
of "the least number of moves" (the visited-set pruning at successor
generation discards shorter routes to already-seen states). -/
theorem claim1_solve_suboptimal :
    (Board.mk 3 [1, 3, 5, 4, 0, 8, 7, 6, 2]).solvable = true ∧
    (Board.mk 3 [1, 3, 5, 4, 0, 8, 7, 6, 2]).apply_moves
      [Dir.r, Dir.d, Dir.l, Dir.u, Dir.r, Dir.u, Dir.l, Dir.d, Dir.r, Dir.d] =
      some (Board.mk 3 [1, 2, 3, 4, 5, 6, 7, 8, 0]) ∧
    solve_moves_count ((Board.mk 3 [1, 3, 5, 4, 0, 8, 7, 6, 2]).solve false 100) = some 12 := by
  refine ⟨by decide, by decide, ?_⟩
  decide

/-- C2 counterexample: the first element of the returned list is the pair
(no direction, start board), not a pair already reflecting one move
applied to the start board — the start board differs from every one-move
successor. -/
theorem claim2_first_element_counterexample :
    (Board.mk 3 [1, 2, 3, 4, 0, 5, 7, 8, 6]).solve false 10 =
      .ok (.found [PMove.mk none (Board.mk 3 [1, 2, 3, 4, 0, 5, 7, 8, 6]),
        PMove.mk (some Dir.r) (Board.mk 3 [1, 2, 3, 4, 5, 0, 7, 8, 6]),
        PMove.mk (some Dir.d) (Board.mk 3 [1, 2, 3, 4, 5, 6, 7, 8, 0])]) ∧
    ((Board.mk 3 [1, 2, 3, 4, 0, 5, 7, 8, 6]).move_tile Dir.u).map Board.board ≠
      some [1, 2, 3, 4, 0, 5, 7, 8, 6] ∧
    ((Board.mk 3 [1, 2, 3, 4, 0, 5, 7, 8, 6]).move_tile Dir.d).map Board.board ≠
      some [1, 2, 3, 4, 0, 5, 7, 8, 6] ∧
    ((Board.mk 3 [1, 2, 3, 4, 0, 5, 7, 8, 6]).move_tile Dir.l).map Board.board ≠
      some [1, 2, 3, 4, 0, 5, 7, 8, 6] ∧
    ((Board.mk 3 [1, 2, 3, 4, 0, 5, 7, 8, 6]).move_tile Dir.r).map Board.board ≠
      some [1, 2, 3, 4, 0, 5, 7, 8, 6] := by
  refine ⟨?_, by decide, by decide, by decide, by decide⟩
  decide

/-- C2 (amended): for every solvable start board, whenever `solve` returns
a list, its first element is the (no-direction, start-board) pair and its
last element's board equals the goal board. -/
theorem claim2_path_endpoints (b : Board) (ow : Bool) (fuel : Nat) (path : List PMove)
    (hsv : b.solvable = true)
    (h : b.solve ow fuel = .ok (.found path)) :
    path.head?.map (fun mv => (mv.direction, mv.board.board)) = some (none, b.board) ∧
    path.getLast?.map (fun mv => mv.board.board) = some b.goal.board := by
  unfold Board.solve at h
  rw [if_neg (by simp [hsv])] at h
  by_cases hg : ¬(ow : Prop) ∧ (3 < b.width ∨ 3 < b.height)
  · rw [if_pos (by simpa using hg)] at h
    exact absurd h (by simp)
  · rw [if_neg (by simpa using hg)] at h
    have h2 : (b.solve_run fuel).1 = .found path := by
      injection h
    have hrun : b.solve_run fuel = astar_loop b.goal (mk_item b.goal 0 none b (-1)) fuel
        { openL := [mk_item b.goal 0 none b (-1)],
          item_by_idx := [mk_item b.goal 0 none b (-1)], visited := [],
          pushed := [b.board] } := rfl
    rw [hrun] at h2
    have h3 : astar_loop b.goal (mk_item b.goal 0 none b (-1)) fuel
        { openL := [mk_item b.goal 0 none b (-1)],
          item_by_idx := [mk_item b.goal 0 none b (-1)], visited := [],
          pushed := [b.board] } =
        (.found path, (astar_loop b.goal (mk_item b.goal 0 none b (-1)) fuel
          { openL := [mk_item b.goal 0 none b (-1)],
            item_by_idx := [mk_item b.goal 0 none b (-1)], visited := [],
            pushed := [b.board] }).2) := by
      rw [← h2]
    obtain ⟨hh, hl⟩ := astar_loop_found_spec b.goal (mk_item b.goal 0 none b (-1)) fuel
      { openL := [mk_item b.goal 0 none b (-1)],
        item_by_idx := [mk_item b.goal 0 none b (-1)], visited := [],
        pushed := [b.board] }
      rfl
      (fun k hk hk0 => absurd hk0 (by simp at hk; omega))
      (fun it hit => by simpa using hit)
      path _ h3
    exact ⟨hh, hl⟩

/-- C2 witness. -/
theorem claim2_path_endpoints_witness :
    (Board.mk 3 [1, 2, 3, 4, 0, 5, 7, 8, 6]).solvable = true ∧
    ((List.head? [PMove.mk none (Board.mk 3 [1, 2, 3, 4, 0, 5, 7, 8, 6]),
        PMove.mk (some Dir.r) (Board.mk 3 [1, 2, 3, 4, 5, 0, 7, 8, 6]),
        PMove.mk (some Dir.d) (Board.mk 3 [1, 2, 3, 4, 5, 6, 7, 8, 0])]).map
        (fun mv => (mv.direction, mv.board.board)) =
      some (none, (Board.mk 3 [1, 2, 3, 4, 0, 5, 7, 8, 6]).board) ∧
    (List.getLast? [PMove.mk none (Board.mk 3 [1, 2, 3, 4, 0, 5, 7, 8, 6]),
        PMove.mk (some Dir.r) (Board.mk 3 [1, 2, 3, 4, 5, 0, 7, 8, 6]),
        PMove.mk (some Dir.d) (Board.mk 3 [1, 2, 3, 4, 5, 6, 7, 8, 0])]).map
        (fun mv => mv.board.board) =
      some (Board.mk 3 [1, 2, 3, 4, 0, 5, 7, 8, 6]).goal.board) :=
  ⟨by decide,
    claim2_path_endpoints (Board.mk 3 [1, 2, 3, 4, 0, 5, 7, 8, 6]) false 10 _
      (by decide) (by decide)⟩

/-- C7 counterexample: `m_dist` raises no size-mismatch signal — called
with boards of different sizes and a tile valid for both, it just returns
a number. -/
theorem claim7_size_mismatch_counterexample :
    (Board.mk 3 [1, 2, 3, 4, 5, 6, 7, 8, 0]).size ≠ (Board.mk 2 [1, 2, 3, 0]).size ∧
    (Board.mk 3 [1, 2, 3, 4, 5, 6, 7, 8, 0]).m_dist (Board.mk 2 [1, 2, 3, 0]) 1 false =
      some 0 := by
  decide

/-- C7 (amended): `m_dist` itself performs no size-equality check (the
size-mismatch signal lives in `sum_m_dists`); when the sizes are equal and
the tile is valid it returns `|x - x'| + |y - y'|`, and `0` for the empty
tile unless `count_free_tile` is requested. -/
theorem claim7_m_dist_spec (b other : Board) (t : Nat) (cf : Bool) :
    (b.size ≠ other.size → b.sum_m_dists other = none) ∧
    (b.size = other.size → t < b.size →
      b.m_dist other t cf =
        some (if cf = false ∧ t = EMPTY_TILE then 0
          else (((b.x t : Int) - (other.x t : Int)).natAbs +
            ((b.y t : Int) - (other.y t : Int)).natAbs))) := by
  constructor
  · intro h
    unfold Board.sum_m_dists
    rw [if_pos h]
  · intro hsz ht
    unfold Board.m_dist
    rw [if_neg (not_not_intro ht)]
    by_cases hc : cf = false ∧ t = EMPTY_TILE
    · rw [if_pos hc, if_pos hc]
    · rw [if_neg hc, if_neg hc, if_neg (not_not_intro (by omega))]

/-- C7 witness. -/
theorem claim7_m_dist_spec_witness :
    (Board.mk 3 [1, 2, 3, 4, 5, 6, 7, 8, 0]).size = (Board.mk 3 [2, 1, 3, 4, 5, 6, 7, 8, 0]).size ∧
    2 < (Board.mk 3 [1, 2, 3, 4, 5, 6, 7, 8, 0]).size ∧
    (Board.mk 3 [1, 2, 3, 4, 5, 6, 7, 8, 0]).m_dist (Board.mk 3 [2, 1, 3, 4, 5, 6, 7, 8, 0]) 2
      false = some (if (false = false ∧ 2 = EMPTY_TILE) then 0
        else ((((Board.mk 3 [1, 2, 3, 4, 5, 6, 7, 8, 0]).x 2 : Int) -
            ((Board.mk 3 [2, 1, 3, 4, 5, 6, 7, 8, 0]).x 2 : Int)).natAbs +
          (((Board.mk 3 [1, 2, 3, 4, 5, 6, 7, 8, 0]).y 2 : Int) -
            ((Board.mk 3 [2, 1, 3, 4, 5, 6, 7, 8, 0]).y 2 : Int)).natAbs)) :=
  ⟨by decide, by decide,
    (claim7_m_dist_spec (Board.mk 3 [1, 2, 3, 4, 5, 6, 7, 8, 0])
      (Board.mk 3 [2, 1, 3, 4, 5, 6, 7, 8, 0]) 2 false).2 (by decide) (by decide)⟩

/-- C8 counterexample: two realizable search items with equal `f` where
the item whose board is lexicographically smaller is ordered second: the
namedtuple comparison breaks `f`-ties by `h` before ever comparing the
boards. -/
theorem claim8_tie_break_counterexample :
    (mk_item (Board.mk 3 [1, 2, 3, 4, 5, 6, 7, 0, 8]).goal 3 (some Dir.r)
      (Board.mk 3 [1, 2, 3, 4, 5, 6, 7, 0, 8]) 0).f =
      (mk_item (Board.mk 3 [1, 2, 3, 4, 5, 6, 7, 0, 8]).goal 2 (some Dir.d)
        (Board.mk 3 [1, 2, 3, 4, 5, 6, 0, 7, 8]) 0).f ∧
    Board.lt (Board.mk 3 [1, 2, 3, 4, 5, 6, 0, 7, 8])
      (Board.mk 3 [1, 2, 3, 4, 5, 6, 7, 0, 8]) = true ∧
    Item.lt (mk_item (Board.mk 3 [1, 2, 3, 4, 5, 6, 7, 0, 8]).goal 3 (some Dir.r)
        (Board.mk 3 [1, 2, 3, 4, 5, 6, 7, 0, 8]) 0)
      (mk_item (Board.mk 3 [1, 2, 3, 4, 5, 6, 7, 0, 8]).goal 2 (some Dir.d)
        (Board.mk 3 [1, 2, 3, 4, 5, 6, 0, 7, 8]) 0) = true := by
  decide

/-- C8 (amended): ties in `f` are broken by `h`, then by `g`, and only
then by the boards' lexicographic cell order. -/
theorem claim8_tie_break_order (i1 i2 : Item) (hf : i1.f = i2.f) :
    (i1.h ≠ i2.h → (Item.lt i1 i2 = true ↔ i1.h < i2.h)) ∧
    (i1.h = i2.h → i1.g ≠ i2.g → (Item.lt i1 i2 = true ↔ i1.g < i2.g)) ∧
    (i1.h = i2.h → i1.g = i2.g → i1.board.board ≠ i2.board.board →
      (Item.lt i1 i2 = true ↔ Board.lt i1.board i2.board = true)) := by
  unfold Item.lt
  rw [if_neg (not_not_intro hf)]
  refine ⟨?_, ?_, ?_⟩
  · intro hh
    rw [if_pos hh]
    simp
  · intro hh hg
    rw [if_neg (not_not_intro hh), if_pos hg]
    simp
  · intro hh hg hb
    rw [if_neg (not_not_intro hh), if_neg (not_not_intro hg), if_pos hb]

/-- C8 witness. -/
theorem claim8_tie_break_order_witness :
    (mk_item (Board.mk 3 [1, 2, 3, 4, 5, 6, 7, 0, 8]).goal 3 (some Dir.r)
      (Board.mk 3 [1, 2, 3, 4, 5, 6, 7, 0, 8]) 0).h ≠
      (mk_item (Board.mk 3 [1, 2, 3, 4, 5, 6, 7, 0, 8]).goal 2 (some Dir.d)
        (Board.mk 3 [1, 2, 3, 4, 5, 6, 0, 7, 8]) 0).h ∧
    (Item.lt (mk_item (Board.mk 3 [1, 2, 3, 4, 5, 6, 7, 0, 8]).goal 3 (some Dir.r)
        (Board.mk 3 [1, 2, 3, 4, 5, 6, 7, 0, 8]) 0)
      (mk_item (Board.mk 3 [1, 2, 3, 4, 5, 6, 7, 0, 8]).goal 2 (some Dir.d)
        (Board.mk 3 [1, 2, 3, 4, 5, 6, 0, 7, 8]) 0) = true ↔
      (mk_item (Board.mk 3 [1, 2, 3, 4, 5, 6, 7, 0, 8]).goal 3 (some Dir.r)
        (Board.mk 3 [1, 2, 3, 4, 5, 6, 7, 0, 8]) 0).h <
        (mk_item (Board.mk 3 [1, 2, 3, 4, 5, 6, 7, 0, 8]).goal 2 (some Dir.d)
          (Board.mk 3 [1, 2, 3, 4, 5, 6, 0, 7, 8]) 0).h) :=
  ⟨by decide,
    (claim8_tie_break_order _ _ (by decide)).1 (by decide)⟩

/-- C9 counterexample: the start board's cell sequence is passed to
`heappush` twice in a single solve run — it is never placed in the visited
set, so it is re-enqueued when regenerated as a successor. -/
theorem claim9_start_enqueued_twice :
    (Board.mk 3 [1, 2, 3, 4, 0, 5, 7, 8, 6]).solvable = true ∧
    (((Board.mk 3 [1, 2, 3, 4, 0, 5, 7, 8, 6]).solve_run 10).2.pushed).count
      [1, 2, 3, 4, 0, 5, 7, 8, 6] = 2 := by
  refine ⟨by decide, ?_⟩
  decide

/-- C9 (amended): every board enqueued as a successor is added to the
visited set when enqueued and is never enqueued as a successor twice; the
start board however is pushed initially without being added to visited
(and may later be enqueued a second time, see the counterexample). -/
theorem claim9_enqueue_discipline (b : Board) (fuel : Nat) :
    (b.solve_run fuel).2.pushed.head? = some b.board ∧
    (b.solve_run fuel).2.pushed.tail.Nodup ∧
    ∀ c ∈ (b.solve_run fuel).2.pushed.tail, c ∈ (b.solve_run fuel).2.visited := by
  have hrun : b.solve_run fuel = astar_loop b.goal (mk_item b.goal 0 none b (-1)) fuel
      { openL := [mk_item b.goal 0 none b (-1)],
        item_by_idx := [mk_item b.goal 0 none b (-1)], visited := [],
        pushed := [b.board] } := rfl
  obtain ⟨t2, hp, hnd, hsub⟩ := astar_loop_pushed_inv b.goal (mk_item b.goal 0 none b (-1))
    fuel
    { openL := [mk_item b.goal 0 none b (-1)],
      item_by_idx := [mk_item b.goal 0 none b (-1)], visited := [],
      pushed := [b.board] }
    b.board [] rfl List.nodup_nil (fun c hc => absurd hc (List.not_mem_nil c))
  rw [hrun, hp]
  exact ⟨rfl, hnd, hsub⟩

end Claims

end SlidePuzzle
